import Mathlib

/-!
# Verification of the url-collector classification and ranking pipeline

Shallow embedding of the relevant parts of `src/url_collector` (Python):
`groq_filter.py` (hybrid rule/AI classifier), `filter.py` (dedup,
per-domain quota, structural signatures) and `ai_filter.py` (heuristic
scorer and score-based ranker).

Modelling conventions:
* Python strings are Lean `String`s; most operations are defined on the
  underlying `List Char` so that everything is executable and
  kernel-reducible.
* `urllib.parse.urlparse` is embedded for the scheme/netloc/path/query
  components.  The fragment is split off up front (Python removes it
  after the netloc; for the components used by this code the result is
  the same, and `.fragment` itself is never consulted by the code under
  verification).
* `re` character classes: `\d` is modelled as the ASCII digits and
  `str.lower`/`str.upper`/`str.strip` as their ASCII behaviour; the
  code only ever matches ASCII pattern text and Hangul ranges, which
  are modelled exactly.
* `unquote` is modelled byte-wise (`%XY` with two hex digits becomes the
  character with that code); multi-byte UTF-8 sequences are not
  reassembled.  No property below depends on percent-decoding.
* Python `dict`s keyed by URL are modelled as insertion-ordered
  association lists with overwrite-on-insert, matching `dict` lookup
  and iteration semantics.
* The Stage 3 network call (`requests.post` to the Groq API) is the one
  impure boundary; it is abstracted as an injectable
  `oracle : List String → BatchOutcome` returning either a raised
  exception (`failure`) or an HTTP status plus response text.
-/

/-! ## Character and string primitives -/

/-- `[가-힣]` of `groq_filter.py` (U+AC00 – U+D7A3). -/
def isHangulA (c : Char) : Bool := 0xAC00 ≤ c.toNat && c.toNat ≤ 0xD7A3

/-- `[가-힯]` of `filter.py` / `ai_filter.py`. -/
def isHangulB (c : Char) : Bool := 0xAC00 ≤ c.toNat && c.toNat ≤ 0xD7AF

/-- `[a-z0-9]` with `re.IGNORECASE`. -/
def isAsciiAlnum (c : Char) : Bool := c.isAlpha || c.isDigit

/-- `[a-z_]` with `re.IGNORECASE`. -/
def isAlphaUnderscore (c : Char) : Bool := c.isAlpha || c = '_'

/-- Python `re.match(r'^\d+$', s)`: `s` is nonempty and all digits. -/
def allDigits (s : String) : Bool := !s.data.isEmpty && s.data.all (·.isDigit)

/-- Split a character list at every occurrence of `c` (Python
`str.split` with a one-character separator). -/
def splitOnChar (c : Char) : List Char → List (List Char)
  | [] => [[]]
  | x :: xs =>
    if x = c then [] :: splitOnChar c xs
    else
      match splitOnChar c xs with
      | [] => [[x]]
      | h :: t => (x :: h) :: t

/-- Split at the first occurrence of `c`: `some (before, after)`, or
`none` when `c` does not occur (Python `str.split(c, 1)` /
`str.partition`). -/
def splitAtChar (c : Char) : List Char → Option (List Char × List Char)
  | [] => none
  | x :: xs =>
    if x = c then some ([], xs)
    else (splitAtChar c xs).map (fun p => (x :: p.1, p.2))

/-- Python substring test `needle in haystack`. -/
def listHasSub (needle : List Char) : List Char → Bool
  | [] => needle.isEmpty
  | h :: t => needle.isPrefixOf (h :: t) || listHasSub needle t

/-- Python `needle in haystack` on strings. -/
def strHasSub (needle haystack : String) : Bool :=
  listHasSub needle.data haystack.data

/-- Python `s.startswith Pre`. -/
def strStarts (pre s : String) : Bool := pre.data.isPrefixOf s.data

/-- Python `s.endswith suf`. -/
def strEnds (suf s : String) : Bool := suf.data.reverse.isPrefixOf s.data.reverse

/-- ASCII lower-casing, Python `str.lower` for the ASCII range. -/
def strLower (s : String) : String := ⟨s.data.map Char.toLower⟩

/-- ASCII upper-casing, Python `str.upper` for the ASCII range. -/
def strUpper (s : String) : String := ⟨s.data.map Char.toUpper⟩

/-- Python `str.rstrip("/")`. -/
def rstripSlash (s : String) : String :=
  ⟨(s.data.reverse.dropWhile (· = '/')).reverse⟩

/-- Python whitespace for `str.strip()` (ASCII part). -/
def isPySpace (c : Char) : Bool :=
  c = ' ' || c = '\t' || c = '\n' || c = '\r' || c = '\x0b' || c = '\x0c'

/-- Python `str.strip()`. -/
def pyStrip (s : String) : String :=
  ⟨(((s.data.dropWhile isPySpace).reverse.dropWhile isPySpace).reverse)⟩

/-- Number of occurrences of `c` in `s` (Python `str.count` for a
single character). -/
def countChar (c : Char) (s : String) : Nat := (s.data.filter (· = c)).length

/-- Value of an ASCII hex digit. -/
def hexVal? (c : Char) : Option Nat :=
  if '0' ≤ c ∧ c ≤ '9' then some (c.toNat - '0'.toNat)
  else if 'a' ≤ c ∧ c ≤ 'f' then some (c.toNat - 'a'.toNat + 10)
  else if 'A' ≤ c ∧ c ≤ 'F' then some (c.toNat - 'A'.toNat + 10)
  else none

/-- Byte-wise model of `urllib.parse.unquote`: each valid `%XY` escape
becomes the character with code `XY`. -/
def unquoteList : List Char → List Char
  | '%' :: a :: b :: rest =>
    match hexVal? a, hexVal? b with
    | some ha, some hb => Char.ofNat (16 * ha + hb) :: unquoteList rest
    | _, _ => '%' :: unquoteList (a :: b :: rest)
  | c :: rest => c :: unquoteList rest
  | [] => []

/-- `urllib.parse.unquote` on strings. -/
def unquote (s : String) : String := ⟨unquoteList s.data⟩

/-- `unquote_plus`: `+` becomes a space, then percent-decoding (used by
`parse_qs`). -/
def unquotePlus (l : List Char) : String :=
  ⟨unquoteList (l.map (fun c => if c = '+' then ' ' else c))⟩

/-- Python string `<` (code-point lexicographic). -/
def pyStrLt : List Char → List Char → Bool
  | [], [] => false
  | [], _ :: _ => true
  | _ :: _, [] => false
  | a :: as', b :: bs =>
    if a.toNat < b.toNat then true
    else if b.toNat < a.toNat then false
    else pyStrLt as' bs

/-! ## `urllib.parse.urlparse` -/

/-- The components of `urlparse` consulted by the code under
verification (the fragment is dropped, see the header comment). -/
structure ParsedUrl where
  scheme : String
  netloc : String
  path : String
  query : String
deriving DecidableEq, Repr

/-- Characters allowed after the first in a URL scheme. -/
def isSchemeChar (c : Char) : Bool :=
  c.isAlpha || c.isDigit || c = '+' || c = '-' || c = '.'

/-- Split off `scheme:` when the text before the first `:` is a valid
scheme (first char a letter, rest scheme chars); the scheme is
lower-cased, as in CPython `urlsplit`. -/
def schemeSplit (l : List Char) : String × List Char :=
  match splitAtChar ':' l with
  | none => ("", l)
  | some (pre, post) =>
    match pre with
    | [] => ("", l)
    | p :: ps =>
      if p.isAlpha && ps.all isSchemeChar then (strLower ⟨p :: ps⟩, post)
      else ("", l)

/-- Split off `//netloc` when present; the netloc extends to the first
`/`, `?` or `#`. -/
def netlocSplit (l : List Char) : String × List Char :=
  match l with
  | '/' :: '/' :: rest =>
    (⟨rest.takeWhile (fun c => !(c = '/' || c = '?' || c = '#'))⟩,
     rest.dropWhile (fun c => !(c = '/' || c = '?' || c = '#')))
  | _ => ("", l)

/-- Fragment-free part of `urlparse` on a character list. -/
def urlparseCore (l : List Char) : ParsedUrl :=
  let s := schemeSplit l
  let n := netlocSplit s.2
  match splitAtChar '?' n.2 with
  | none => ⟨s.1, n.1, ⟨n.2⟩, ""⟩
  | some pq => ⟨s.1, n.1, ⟨pq.1⟩, ⟨pq.2⟩⟩

/-- `urllib.parse.urlparse`, restricted to scheme/netloc/path/query:
the fragment (everything from the first `#`) is removed first. -/
def urlparse (s : String) : ParsedUrl :=
  urlparseCore (s.data.takeWhile (· ≠ '#'))

/-- Python `url.split("#")[0]`. -/
def splitHash (s : String) : String := ⟨s.data.takeWhile (· ≠ '#')⟩

/-! ## `urllib.parse.parse_qs` / `parse_qsl` -/

/-- One field of a query string, as processed by CPython `parse_qsl`
(separator `&`, `strict_parsing=False`). -/
def qslField (keepBlank : Bool) (field : List Char) :
    Option (String × String) :=
  if field.isEmpty then none
  else
    match splitAtChar '=' field with
    | none => if keepBlank then some (unquotePlus field, "") else none
    | some (n, v) =>
      if !v.isEmpty || keepBlank then some (unquotePlus n, unquotePlus v)
      else none

/-- `urllib.parse.parse_qsl`. -/
def parse_qsl (keepBlank : Bool) (q : String) : List (String × String) :=
  (splitOnChar '&' q.data).foldr
    (fun field acc =>
      match qslField keepBlank field with
      | none => acc
      | some p => p :: acc) []

/-- `key in parse_qs(q)` — the key has at least one parsed value. -/
def hasQ (qsl : List (String × String)) (k : String) : Bool :=
  qsl.any (fun p => p.1 = k)

/-- `parse_qs(q).get(k, [""])[0]` — first value of the key, default
empty. -/
def firstQ (qsl : List (String × String)) (k : String) : String :=
  ((qsl.find? (fun p => p.1 = k)).map (·.2)).getD ""

/-- Keys of `parse_qs(q)` in dict (first-occurrence) order. -/
def qsKeys (qsl : List (String × String)) : List String :=
  qsl.foldl (fun ks p => if p.1 ∈ ks then ks else ks ++ [p.1]) []

/-! ## `groq_filter.py` — hybrid classifier -/

/-- `post_params` of `is_obvious_post`. -/
def post_params : List String :=
  ["wr_id", "spt", "sca", "sst", "sod", "sop", "stx", "sfl", "page"]

/-- Path segments: `[s for s in path.split("/") if s and not s.endswith(".php")]`. -/
def segsNoPhp (path : String) : List String :=
  ((splitOnChar '/' path.data).map (fun l => (⟨l⟩ : String))).filter
    (fun s => !s.isEmpty && !strEnds ".php" s)

/-- `is_obvious_post` — Stage 1 deterministic POST detector. -/
def is_obvious_post (url : String) : Bool :=
  let parsed := urlparse url
  let path := rstripSlash (unquote parsed.path)
  let query := parsed.query
  let segments := segsNoPhp path
  let lastSeg := segments.getLastD ""
  (post_params.any fun p => strHasSub (p ++ "=") query) ||
  (decide (2 ≤ segments.length) && allDigits lastSeg) ||
  (decide (2 ≤ segments.length) &&
    ((decide (3 ≤ countChar '-' lastSeg) && decide (20 < lastSeg.length)) ||
     (lastSeg.data.any isHangulA && decide (2 ≤ countChar '-' lastSeg)))) ||
  (segments.any fun seg => allDigits seg && decide (2 ≤ seg.length))

/-- `exclude_params` of `is_obvious_seo`. -/
def exclude_params : List String :=
  ["wr_id", "sca", "spt", "sst", "sod", "sop", "stx", "sfl", "page"]

/-- `is_obvious_seo` — Stage 2 deterministic LISTING ("SEO") detector. -/
def is_obvious_seo (url : String) : Bool :=
  let parsed := urlparse url
  let path := rstripSlash (unquote parsed.path)
  let query := parsed.query
  if !query.isEmpty then
    strHasSub "board.php" path && strHasSub "bo_table=" query &&
    !(exclude_params.any fun p => strHasSub (p ++ "=") query) &&
    decide (countChar '=' query = 1)
  else if path.isEmpty || path = "/" then true
  else if strHasSub ".php" path then false
  else
    match segsNoPhp path with
    | [segment] => !allDigits segment && decide (segment.length ≤ 15)
    | _ => false

/-- Outcome of one Stage 3 network call: a raised exception, or an HTTP
status code with the response text. -/
inductive BatchOutcome where
  | failure : BatchOutcome
  | success (status : Nat) (answer : String) : BatchOutcome

/-- Python-`dict` assignment `d[k] = v` on an insertion-ordered
association list: overwrite in place, else append. -/
def dictInsert (d : List (String × String)) (k v : String) :
    List (String × String) :=
  if d.any (fun p => p.1 = k) then
    d.map (fun p => if p.1 = k then (k, v) else p)
  else d ++ [(k, v)]

/-- Python `d.get(k)`. -/
def dictGet? (d : List (String × String)) (k : String) : Option String :=
  (d.find? (fun p => p.1 = k)).map (·.2)

/-- Python `d.update(u)` (iterate `u` in order, assigning each pair). -/
def dictUpd (d upd : List (String × String)) : List (String × String) :=
  upd.foldl (fun acc p => dictInsert acc p.1 p.2) d

/-- Does a stripped line start with `"i." ` or `"i "` for 1-based
index `i+1`? -/
def matchesIdx (i : Nat) (line : String) : Bool :=
  let ls := pyStrip line
  strStarts (toString (i + 1) ++ ".") ls || strStarts (toString (i + 1) ++ " ") ls

/-- Label of the `i`-th (0-based) batch entry given the response lines:
`"POST"` by default, `"SEO"` exactly when the first line starting with
the 1-based index contains `"SEO"` upper-cased. -/
def responseLabel (lines : List String) (i : Nat) : String :=
  match lines.find? (fun line => matchesIdx i line) with
  | some line => if strHasSub "SEO" (strUpper line) then "SEO" else "POST"
  | none => "POST"

/-- `GroqFilter._parse_response`: for each URL (default `"POST"`), scan
for the first line starting with its 1-based index; the label is
`"SEO"` exactly when that line contains `"SEO"` upper-cased. -/
def parse_response (urls : List String) (answer : String) :
    List (String × String) :=
  let lines := (splitOnChar '\n' (pyStrip answer).data).map
    (fun l => (⟨l⟩ : String))
  urls.enum.foldl
    (fun results iu => dictInsert results iu.2 (responseLabel lines iu.1)) []

/-- All-`"POST"` dictionary over a batch (`{url: "POST" for url in urls}`). -/
def postDict (urls : List String) : List (String × String) :=
  urls.foldl (fun d u => dictInsert d u "POST") []

/-- `GroqFilter._classify_batch` with the network call abstracted: on a
raised exception or a non-200 status every URL of the batch maps to
`"POST"`; on success the response text is parsed. -/
def classify_batch (oracle : List String → BatchOutcome)
    (urls : List String) : List (String × String) :=
  match oracle urls with
  | .failure => postDict urls
  | .success status answer =>
    if status = 200 then parse_response urls answer else postDict urls

/-- `range(0, len(xs), n)` batching, by fuel on the list length. -/
def chunkAux {α : Type} : Nat → Nat → List α → List (List α)
  | 0, _, _ => []
  | _, _, [] => []
  | fuel + 1, n, x :: xs => (x :: xs).take n :: chunkAux fuel n ((x :: xs).drop n)

/-- Split a list into consecutive batches of size `n`. -/
def chunkList {α : Type} (n : Nat) (xs : List α) : List (List α) :=
  chunkAux xs.length n xs

/-- One step of the Stage 1/2 rule pass of `classify_urls`: label an
obvious POST or SEO URL, else queue it for the AI stage. -/
def phase1Step (acc : List (String × String) × List String) (url : String) :
    List (String × String) × List String :=
  if is_obvious_post url then (dictInsert acc.1 url "POST", acc.2)
  else if is_obvious_seo url then (dictInsert acc.1 url "SEO", acc.2)
  else (acc.1, acc.2 ++ [url])

/-- `GroqFilter.classify_urls`: Stage 1/2 rule pass, then batched
Stage 3 calls for the unresolved remainder. -/
def classify_urls (oracle : List String → BatchOutcome)
    (urls : List String) (batch_size : Nat) : List (String × String) :=
  let phase1 := urls.foldl phase1Step ([], [])
  (chunkList batch_size phase1.2).foldl
    (fun res batch => dictUpd res (classify_batch oracle batch)) phase1.1

/-! ## `filter.py` — dedup, structural signatures, per-domain quota -/

/-- A search hit `{url, title, snippet}`. -/
structure Item where
  url : String
  title : String
  snippet : String
deriving DecidableEq, Repr

/-- `SYSTEM_PATHS` (each regex is a literal string; `\.` is a literal
dot). -/
def SYSTEM_PATHS : List String :=
  ["/adm/", "/admin/", "/plugin/", "/lib/", "/extend/",
   "/modules/", "/widgets/", "/addons/", "/layouts/",
   "/wp-admin", "/wp-includes", "/wp-content/", "/wp-json",
   "/files/attach", "/files/cache", "/data/file/",
   "/login", "/logout", "/signin", "/signout", "/signup",
   "/register", "/auth/", "/oauth/", "/password",
   "/api/", "/ajax/", "/async/", "/xmlrpc",
   "/feed", "/rss", "/captcha", "/robots.txt", "/favicon",
   "/sitemap.xml"]

/-- `SYSTEM_PHP`. -/
def SYSTEM_PHP : List String :=
  ["login", "logout", "register", "password", "memo", "point",
   "scrap", "poll", "formmail", "qrcode", "new", "profile",
   "qalist", "link", "search", "tag", "shingo", "qa", "page"]

/-- The `STATIC_EXTENSIONS` regexes anchored with `$` (suffix tests);
`\.woff` is the one unanchored pattern and is tested separately. -/
def STATIC_SUFFIXES : List String :=
  [".xml", ".json", ".css", ".js",
   ".png", ".jpg", ".jpeg", ".gif", ".svg", ".ico",
   ".ttf", ".pdf", ".zip", ".rar"]

/-- `LIST_PARAMS`. -/
def LIST_PARAMS : List String :=
  ["page", "sca", "sfl", "stx", "sop", "sst", "sod", "category", "cat"]

/-- `TRACKING_PARAMS` (prefix family). -/
def TRACKING_PARAMS : List String := ["utm_", "fbclid", "gclid", "ref", "device"]

/-- `id_params` of `_has_content_identifier`. -/
def id_params : List String :=
  ["wr_id", "id", "no", "idx", "seq", "num", "article_id", "post_id",
   "document_srl"]

/-- `re.search(r"/\d+/?$", path)` on a path with trailing slashes
already stripped: the path ends in `/` followed by one or more
digits. -/
def pathEndsSlashDigits (path : String) : Bool :=
  let rev := path.data.reverse
  let ds := rev.takeWhile (·.isDigit)
  !ds.isEmpty && (rev.drop ds.length).headD ' ' = '/'

/-- `re.search(r"\d{3,}", s)`: three consecutive digits somewhere. -/
def hasDigitRun3 : List Char → Bool
  | a :: b :: c :: rest =>
    (a.isDigit && b.isDigit && c.isDigit) || hasDigitRun3 (b :: c :: rest)
  | _ => false

/-- `_has_content_identifier`. -/
def _has_content_identifier (url : String) : Bool :=
  let parsed := urlparse url
  let path := rstripSlash (unquote parsed.path)
  let qsl := parse_qsl false parsed.query
  (id_params.any fun p => hasQ qsl p) ||
  pathEndsSlashDigits path ||
  (let segments := ((splitOnChar '/' path.data).map
      (fun l => (⟨l⟩ : String))).filter (fun s => !s.isEmpty)
   match segments.getLast? with
   | none => false
   | some lastSeg =>
     (decide (8 ≤ lastSeg.length) && lastSeg.data.all isAsciiAlnum) ||
     (decide (2 ≤ segments.length) &&
       (decide (2 ≤ countChar '-' lastSeg) ||
        (lastSeg.data.any isHangulB && strHasSub "-" lastSeg) ||
        (decide (3 ≤ segments.length) && decide (10 < lastSeg.length)))))

/-- `_is_system_url`. -/
def _is_system_url (url : String) : Bool :=
  let path := strLower (urlparse url).path
  (SYSTEM_PATHS.any fun p => strHasSub p path) ||
  ((STATIC_SUFFIXES.any fun p => strEnds p path) || strHasSub ".woff" path) ||
  (strHasSub "/bbs/" path &&
   SYSTEM_PHP.any fun php =>
     strHasSub ("/" ++ php ++ ".php") path || strHasSub ("/" ++ php ++ "/") path)

/-- `list_endings` of `_is_list_page`. -/
def list_endings : List String := ["posts", "list", "page", "items", "all", "archive"]

/-- `_is_list_page`. -/
def _is_list_page (url : String) : Bool :=
  if _has_content_identifier url then false
  else
    let parsed := urlparse url
    let path := rstripSlash (unquote parsed.path)
    let qsl := parse_qsl false parsed.query
    (path ∈ ["", "/index.php", "/index.html", "/show.php", "/main"]) ||
    (strHasSub "board.php" (strLower path) && !hasQ qsl "wr_id") ||
    (let segments := segsNoPhp path
     decide (segments.length = 1) ||
     (match segments.getLast? with
      | none => false
      | some lastSeg =>
        (strLower lastSeg ∈ list_endings) ||
        (decide (segments.length = 2) &&
          ((strHasSub "_" lastSeg && !hasDigitRun3 lastSeg.data) ||
           (!lastSeg.data.isEmpty && lastSeg.data.all isHangulB &&
            decide (lastSeg.length ≤ 10)) ||
           (!lastSeg.data.isEmpty && lastSeg.data.all isAlphaUnderscore &&
            decide (lastSeg.length ≤ 20)))))) ||
    (!qsl.isEmpty &&
     (qsKeys qsl).all fun k => strLower k ∈ LIST_PARAMS ++ TRACKING_PARAMS)

/-- Stable insertion into an ascending list under Python string `<`
(used to model `sorted` on query keys, which are pairwise distinct). -/
def insertStrAsc (x : String) : List String → List String
  | [] => [x]
  | y :: ys => if pyStrLt x.data y.data then x :: y :: ys else y :: insertStrAsc x ys

/-- `sep.join xs`. -/
def joinSep (sep : String) : List String → String
  | [] => ""
  | [x] => x
  | x :: y :: ys => x ++ sep ++ joinSep sep (y :: ys)

/-- Per-segment placeholder classification plus sorted query-key set:
`_get_url_structure`. -/
def _get_url_structure (url : String) : String :=
  let parsed := urlparse url
  let path := rstripSlash parsed.path
  let segments := ((splitOnChar '/' path.data).map
    (fun l => (⟨l⟩ : String))).filter (fun s => !s.isEmpty)
  let normalized := segments.map fun seg =>
    if strEnds ".php" seg then seg
    else if allDigits seg then "{id}"
    else if decide (10 < seg.length) &&
            (strHasSub "-" seg || seg.data.any isHangulB) then "{slug}"
    else if decide (8 ≤ seg.length) && seg.data.all isAsciiAlnum then "{hash}"
    else seg
  let qkeys := (qsKeys (parse_qsl false parsed.query)).foldl
    (fun acc k => insertStrAsc k acc) []
  parsed.netloc ++ "/" ++ joinSep "/" normalized ++ "?" ++ joinSep "&" qkeys

/-- `_normalize_url` — the duplicate-suppression key: drop tracking
keys, sort the remaining `(key, first-value)` pairs, rebuild
`scheme://netloc/path?query` (the fragment is gone already). -/
def _normalize_url (url : String) : String :=
  let parsed := urlparse url
  let qsl := parse_qsl false parsed.query
  let cleanKeys := (qsKeys qsl).filter fun k =>
    !(TRACKING_PARAMS.any fun t => strStarts t (strLower k))
  let entries := (cleanKeys.foldl (fun acc k => insertStrAsc k acc) []).map
    fun k => k ++ "=" ++ firstQ qsl k
  if !cleanKeys.isEmpty then
    parsed.scheme ++ "://" ++ parsed.netloc ++ parsed.path ++ "?" ++
      joinSep "&" entries
  else
    parsed.scheme ++ "://" ++ parsed.netloc ++ parsed.path

/-- State of the `filter_urls` main loop: emitted hits, the seen-set of
normalized keys, and the per-domain counters (`defaultdict(int)`). -/
structure FState where
  filtered : List Item
  seen : List String
  counts : String → Nat

/-- One iteration of the `filter_urls` main loop. `sc` is the
structure-frequency table computed in the first pass. -/
def filterStep (sc : String → Nat) (strict : Bool) (cap : Nat)
    (st : FState) (item : Item) : FState :=
  if item.url.isEmpty then st
  else
    let url := splitHash item.url
    let normalized := _normalize_url url
    if st.seen.contains normalized then st
    else
      let seen' := normalized :: st.seen
      let parsed := urlparse url
      let domain := parsed.netloc
      if cap ≤ st.counts domain then { st with seen := seen' }
      else if _is_system_url url then { st with seen := seen' }
      else
        let is_article :=
          hasQ (parse_qsl false parsed.query) "wr_id" ||
          decide (3 ≤ sc (_get_url_structure url)) ||
          _has_content_identifier url
        if !is_article && _is_list_page url then { st with seen := seen' }
        else if strict && !is_article then { st with seen := seen' }
        else
          { filtered := st.filtered ++ [⟨url, item.title, item.snippet⟩],
            seen := seen',
            counts := fun d => if d = domain then st.counts d + 1 else st.counts d }

/-- The structure-frequency table of the first pass of `filter_urls`
(`structure_counts`). -/
def structCounts (urls : List Item) (σ : String) : Nat :=
  (urls.filter fun i => !i.url.isEmpty && _get_url_structure i.url = σ).length

/-- `filter_urls` — keep article/content hits, drop system and listing
pages, dedup on the normalized key, cap each domain. -/
def filter_urls (urls : List Item) (strict : Bool) (max_per_domain : Nat) :
    List Item :=
  (urls.foldl (filterStep (structCounts urls) strict max_per_domain)
    ⟨[], [], fun _ => 0⟩).filtered

/-- Number of output entries whose URL has netloc `h`. -/
def countHost (h : String) (items : List Item) : Nat :=
  (items.filter fun i => (urlparse i.url).netloc = h).length

/-- Host (netloc) of a hit as `filter_urls` sees it. -/
def hostOfItem (i : Item) : String := (urlparse i.url).netloc

/-! ## `ai_filter.py` — heuristic scorer and ranker -/

/-- `SEO_IMPORTANT` keyword table in insertion order. -/
def SEO_IMPORTANT : List (String × Int) :=
  [("메인", 20), ("홈", 15), ("소개", 15), ("안내", 15),
   ("main", 20), ("home", 15), ("about", 15), ("intro", 15),
   ("먹튀검증", 25), ("먹튀제보", 25), ("먹튀신고", 25),
   ("토토사이트", 20), ("카지노사이트", 20), ("안전놀이터", 20),
   ("보증업체", 20), ("검증업체", 20), ("추천업체", 20),
   ("verification", 25), ("report", 20), ("review", 15),
   ("notice", 15), ("event", 10), ("faq", 10)]

/-- `IMPORTANT_BOARDS` in insertion order. -/
def IMPORTANT_BOARDS : List (String × Int) :=
  [("verification", 25), ("mt_site", 25), ("report", 20),
   ("notice", 15), ("event", 10), ("info", 10),
   ("review", 15), ("qa", 10)]

/-- `ARTICLE_PENALTY`. -/
def ARTICLE_PENALTY : Int := -10

/-- `system_pages` of `calculate_score`. -/
def system_pages : List String :=
  ["login", "logout", "register", "password", "member", "captcha",
   "current_connect", "new.php", "qalist", "profile", "memo",
   "point", "scrap", "formmail", "qrcode"]

/-- `filter_params` of `calculate_score`. -/
def filter_params : List String :=
  ["sca", "page", "sfl", "stx", "sop", "sst", "sod"]

/-- `unimportant_boards` of `calculate_score`. -/
def unimportant_boards : List String :=
  ["chulsuk", "attendance", "출석", "coupon", "쿠폰"]

/-- The additive rules of `calculate_score` over the prepared path, the
parsed query pairs and the lower-cased `title + " " + snippet` text. -/
def scoreCore (path : String) (qsl : List (String × String))
    (text : String) : Int :=
  let s1 : Int :=
    if path ∈ ["", "/", "/index.php", "/index.html", "/main"] then 30 else 0
  let s2 : Int := if (segsNoPhp path).length = 1 then 20 else 0
  let s3 : Int :=
    if strHasSub "board.php" path && hasQ qsl "bo_table" then
      if !hasQ qsl "wr_id" then
        25 + ((IMPORTANT_BOARDS.find? fun bp =>
                strHasSub bp.1 (strLower (firstQ qsl "bo_table"))).map
              (·.2)).getD 0
      else ARTICLE_PENALTY
    else 0
  let s4 : Int := if pathEndsSlashDigits path then ARTICLE_PENALTY else 0
  let s5 : Int := SEO_IMPORTANT.foldl
    (fun acc kw =>
      if strHasSub kw.1 text || strHasSub kw.1 path then acc + kw.2 else acc) 0
  let s6 : Int := if system_pages.any (fun p => strHasSub p path) then -50 else 0
  let s7 : Int := if filter_params.any (fun p => hasQ qsl p) then -80 else 0
  let s8 : Int :=
    if hasQ qsl "bo_table" &&
       unimportant_boards.any
         (fun b => strHasSub b (strLower (firstQ qsl "bo_table"))) then
      -80
    else 0
  s1 + s2 + s3 + s4 + s5 + s6 + s7 + s8

/-- `calculate_score` on already-parsed components (the function only
consults `parsed.path` and `parsed.query`). -/
def scoreOfParsed (parsed : ParsedUrl) (title snippet : String) : Int :=
  scoreCore (rstripSlash (strLower (unquote parsed.path)))
    (parse_qsl false parsed.query) (strLower (title ++ " " ++ snippet))

/-- `calculate_score(url, title, snippet)` — the heuristic SEO score. -/
def calculate_score (url title snippet : String) : Int :=
  scoreOfParsed (urlparse url) title snippet

/-- Stable descending insertion on the `_score` component (Python's
stable `sort(key=..., reverse=True)`): an element is placed after all
elements with a greater-or-equal score. -/
def insertDesc (x : Item × Int) : List (Item × Int) → List (Item × Int)
  | [] => [x]
  | y :: ys => if x.2 ≤ y.2 then y :: insertDesc x ys else x :: y :: ys

/-- Stable descending sort by score. -/
def sortScored (l : List (Item × Int)) : List (Item × Int) :=
  l.foldl (fun acc x => insertDesc x acc) []

/-- `smart_filter_urls(urls, min_score, top_n)`: score each hit, keep
those with `score >= min_score`, sort by score descending (stable),
truncate to `top_n` when it is truthy, and strip the score. -/
def smart_filter_urls (urls : List Item) (min_score : Int)
    (top_n : Option Nat) : List Item :=
  let scored := (urls.map fun i =>
    (i, calculate_score i.url i.title i.snippet)).filter
      fun p => min_score ≤ p.2
  let sorted := sortScored scored
  let truncated :=
    match top_n with
    | some n => if n ≠ 0 then sorted.take n else sorted
    | none => sorted
  truncated.map (·.1)

/-! ## Auxiliary definitions used by the statements and proofs -/

/-- URLs left unresolved by the deterministic Stage 1/2 rules — the
`need_ai` list of `classify_urls`. -/
def needAI (urls : List String) : List String :=
  urls.filter fun u => !is_obvious_post u && !is_obvious_seo u

/-- Attach a query field to an existing query string (`?f` on an empty
query, `&f` otherwise). -/
def joinAmp (q f : String) : String := if q.isEmpty then f else q ++ "&" ++ f

/-- A key is present in an association list. -/
def keyMem (d : List (String × String)) (k : String) : Bool :=
  d.any fun p => p.1 = k

/-- Every value of the dictionary is one of the two labels. -/
def GoodVals (d : List (String × String)) : Prop :=
  ∀ p ∈ d, p.2 = "POST" ∨ p.2 = "SEO"

/-- Every value of the dictionary is `"POST"`. -/
def AllPost (d : List (String × String)) : Prop := ∀ p ∈ d, p.2 = "POST"

/-- Scores are non-increasing along the list. -/
def SortedDesc (l : List (Item × Int)) : Prop :=
  l.Pairwise fun a b => b.2 ≤ a.2

/-- Recover the netloc from a `_normalize_url` key: skip to the first
`:`, drop `://`, take up to the next `/` or `?`. -/
def recoverNetloc (key : String) : String :=
  ⟨((key.data.dropWhile (· ≠ ':')).drop 3).takeWhile
    fun c => !(c = '/' || c = '?')⟩

/-- Recover the netloc from a `_get_url_structure` signature: the text
before the first `/`. -/
def structureNetloc (σ : String) : String := ⟨σ.data.takeWhile (· ≠ '/')⟩

/-- An input item is host-resolvable: its URL is empty (skipped by the
loop) or parses with a nonempty netloc. -/
def GoodHost (i : Item) : Prop := i.url = "" ∨ (urlparse i.url).netloc ≠ ""

/-- The Stage 3 call for a batch fails: the request raises, or it
returns a non-200 HTTP status. -/
def FailsFor (oracle : List String → BatchOutcome) (b : List String) : Prop :=
  oracle b = BatchOutcome.failure ∨
  ∃ st ans, oracle b = BatchOutcome.success st ans ∧ st ≠ 200

/-- Simulation relation for host `h` between the `filter_urls` loop
state on the full input and on the input restricted to host `h`:
agreement of the emitted count for `h`, of the `h` domain counter and
of the seen-set on the normalized keys of host-`h` URLs. -/
def RelHost (h : String) (st st' : FState) : Prop :=
  countHost h st.filtered = countHost h st'.filtered ∧
  st.counts h = st'.counts h ∧
  ∀ v : String, (urlparse v).netloc = h → (urlparse v).netloc ≠ "" →
    st.seen.contains (_normalize_url v) = st'.seen.contains (_normalize_url v)

/-! ## Auxiliary lemmas -/

theorem find?_overwrite (k v : String) :
    ∀ d : List (String × String), d.any (fun p => p.1 = k) = true →
      (d.map fun p => if p.1 = k then (k, v) else p).find?
        (fun p => p.1 = k) = some (k, v) := by
  intro d
  induction d with
  | nil => simp
  | cons p t ih =>
    intro h
    by_cases hp : p.1 = k
    · simp [List.find?, hp]
    · have h' : (t.any fun p => decide (p.1 = k)) = true := by
        simpa [hp] using h
      simp [List.find?, hp, ih h']

theorem find?_append_none {α : Type} (pred : α → Bool) :
    ∀ (l₁ l₂ : List α), l₁.find? pred = none →
      (l₁ ++ l₂).find? pred = l₂.find? pred := by
  intro l₁
  induction l₁ with
  | nil => simp
  | cons a t ih =>
    intro l₂ h
    simp only [List.find?, List.cons_append] at *
    cases hpa : pred a with
    | true => simp [hpa] at h
    | false => simp only [hpa] at h ⊢; exact ih l₂ h

theorem find?_of_any_false {α : Type} (pred : α → Bool) :
    ∀ l : List α, l.any pred = false → l.find? pred = none := by
  intro l
  induction l with
  | nil => simp
  | cons a t ih =>
    intro h
    simp only [List.any_cons, Bool.or_eq_false_iff] at h
    simp [List.find?, h.1, ih h.2]

theorem dictGet?_insert_self (d : List (String × String)) (k v : String) :
    dictGet? (dictInsert d k v) k = some v := by
  unfold dictGet? dictInsert
  by_cases h : d.any (fun p => p.1 = k) = true
  · rw [if_pos h, find?_overwrite k v d h]; rfl
  · rw [if_neg h]
    rw [find?_append_none _ _ _ (find?_of_any_false _ d
      (by revert h; cases d.any fun p => decide (p.1 = k) <;> simp))]
    simp [List.find?]

theorem find?_map_overwrite_ne (k v k' : String) (h : k' ≠ k) :
    ∀ d : List (String × String),
      (d.map fun p => if p.1 = k then (k, v) else p).find? (fun p => p.1 = k') =
      d.find? (fun p => p.1 = k') := by
  intro d
  induction d with
  | nil => simp
  | cons p t ih =>
    by_cases hp : p.1 = k
    · have h1 : ¬(k = k') := fun e => h e.symm
      have h2 : ¬(p.1 = k') := by rw [hp]; exact h1
      simp [List.find?, hp, h1, h2, ih]
    · simp only [List.map_cons, if_neg hp, List.find?]
      cases hpk : decide (p.1 = k') with
      | true => rfl
      | false => exact ih

theorem find?_append_single_ne (k v k' : String) (h : k' ≠ k) :
    ∀ d : List (String × String),
      (d ++ [(k, v)]).find? (fun p => p.1 = k') =
      d.find? (fun p => p.1 = k') := by
  intro d
  induction d with
  | nil => simp [List.find?, Ne.symm h]
  | cons p t ih =>
    simp only [List.cons_append, List.find?]
    cases hpk : decide (p.1 = k') with
    | true => rfl
    | false => exact ih

theorem dictGet?_insert_ne (d : List (String × String)) (k v k' : String)
    (h : k' ≠ k) : dictGet? (dictInsert d k v) k' = dictGet? d k' := by
  unfold dictGet? dictInsert
  split
  · rw [find?_map_overwrite_ne k v k' h d]
  · rw [find?_append_single_ne k v k' h d]

theorem dictGet?_insert_isSome (d : List (String × String)) (k v k' : String)
    (h : (dictGet? d k').isSome) : (dictGet? (dictInsert d k v) k').isSome := by
  by_cases hk : k' = k
  · subst hk; rw [dictGet?_insert_self]; rfl
  · rw [dictGet?_insert_ne d k v k' hk]; exact h

theorem mem_dictInsert (d : List (String × String)) (k v : String)
    (p : String × String) (h : p ∈ dictInsert d k v) : p ∈ d ∨ p = (k, v) := by
  unfold dictInsert at h
  split at h
  · rcases List.mem_map.mp h with ⟨q, hq, he⟩
    by_cases hqk : q.1 = k
    · right; rw [if_pos hqk] at he; exact he.symm
    · left; rw [if_neg hqk] at he; exact he ▸ hq
  · rcases List.mem_append.mp h with h | h
    · exact Or.inl h
    · right; simpa using h

theorem GoodVals_insert (d : List (String × String)) (k v : String)
    (hd : GoodVals d) (hv : v = "POST" ∨ v = "SEO") :
    GoodVals (dictInsert d k v) := by
  intro p hp
  rcases mem_dictInsert d k v p hp with h | h
  · exact hd p h
  · rw [h]; exact hv

theorem keyMem_insert_self (d : List (String × String)) (k v : String) :
    keyMem (dictInsert d k v) k = true := by
  have hs := dictGet?_insert_self d k v
  unfold dictGet? at hs
  unfold keyMem
  rcases hf : (dictInsert d k v).find? (fun p => p.1 = k) with _ | p
  · rw [hf] at hs; simp at hs
  · have h1 := List.find?_some hf
    have h2 := List.mem_of_find?_eq_some hf
    exact List.any_eq_true.mpr ⟨p, h2, h1⟩

theorem keyMem_insert_mono (d : List (String × String)) (k v k' : String)
    (h : keyMem d k' = true) : keyMem (dictInsert d k v) k' = true := by
  by_cases hk : k' = k
  · subst hk; exact keyMem_insert_self d k' v
  · unfold keyMem at h ⊢
    rcases List.any_eq_true.mp h with ⟨p, hp, hpk⟩
    simp only [decide_eq_true_eq] at hpk
    unfold dictInsert
    split
    · refine List.any_eq_true.mpr ⟨p, ?_, by simp [hpk]⟩
      refine List.mem_map.mpr ⟨p, hp, ?_⟩
      have hne : ¬p.1 = k := by rw [hpk]; exact hk
      rw [if_neg hne]
    · exact List.any_eq_true.mpr ⟨p, List.mem_append_left _ hp, by simp [hpk]⟩

theorem dictGet?_upd_ne (u : List (String × String)) :
    ∀ d k, (∀ p ∈ u, p.1 ≠ k) → dictGet? (dictUpd d u) k = dictGet? d k := by
  induction u with
  | nil => intro d k _; rfl
  | cons p t ih =>
    intro d k h
    unfold dictUpd
    simp only [List.foldl_cons]
    have : dictGet? (dictUpd (dictInsert d p.1 p.2) t) k =
        dictGet? (dictInsert d p.1 p.2) k :=
      ih (dictInsert d p.1 p.2) k (fun q hq => h q (List.mem_cons_of_mem _ hq))
    unfold dictUpd at this
    rw [this]
    exact dictGet?_insert_ne d p.1 p.2 k
      (fun e => h p (List.mem_cons_self _ _) e.symm)

theorem dictGet?_upd_post_pres (u : List (String × String)) :
    ∀ d k, AllPost u → dictGet? d k = some "POST" →
      dictGet? (dictUpd d u) k = some "POST" := by
  induction u with
  | nil => intro d k _ h; exact h
  | cons p t ih =>
    intro d k hu h
    unfold dictUpd
    simp only [List.foldl_cons]
    refine ih (dictInsert d p.1 p.2) k
      (fun q hq => hu q (List.mem_cons_of_mem _ hq)) ?_
    by_cases hk : k = p.1
    · have hv := hu p (List.mem_cons_self _ _)
      rw [hk, ← hv]
      exact dictGet?_insert_self d p.1 p.2
    · rw [dictGet?_insert_ne d p.1 p.2 k hk]; exact h

theorem dictGet?_upd_post_mem (u : List (String × String)) :
    ∀ d k, AllPost u → keyMem u k = true →
      dictGet? (dictUpd d u) k = some "POST" := by
  induction u with
  | nil => intro d k _ h; simp [keyMem] at h
  | cons p t ih =>
    intro d k hu hk
    unfold dictUpd
    simp only [List.foldl_cons]
    have ht : AllPost t := fun q hq => hu q (List.mem_cons_of_mem _ hq)
    by_cases hpk : p.1 = k
    · refine dictGet?_upd_post_pres t (dictInsert d p.1 p.2) k ht ?_
      have hv := hu p (List.mem_cons_self _ _)
      rw [← hpk, ← hv]
      exact dictGet?_insert_self d p.1 p.2
    · have hkt : keyMem t k = true := by
        unfold keyMem at hk ⊢
        simpa [hpk] using hk
      exact ih (dictInsert d p.1 p.2) k ht hkt

theorem dictGet?_upd_isSome_pres (u : List (String × String)) :
    ∀ d k, (dictGet? d k).isSome → (dictGet? (dictUpd d u) k).isSome := by
  induction u with
  | nil => intro d k h; exact h
  | cons p t ih =>
    intro d k h
    unfold dictUpd
    simp only [List.foldl_cons]
    exact ih (dictInsert d p.1 p.2) k (dictGet?_insert_isSome d p.1 p.2 k h)

theorem dictGet?_upd_isSome_of_keyMem (u : List (String × String)) :
    ∀ d k, keyMem u k = true → (dictGet? (dictUpd d u) k).isSome := by
  induction u with
  | nil => intro d k h; simp [keyMem] at h
  | cons p t ih =>
    intro d k hk
    unfold dictUpd
    simp only [List.foldl_cons]
    by_cases hpk : p.1 = k
    · refine dictGet?_upd_isSome_pres t (dictInsert d p.1 p.2) k ?_
      rw [hpk]; rw [dictGet?_insert_self]; rfl
    · have hkt : keyMem t k = true := by
        unfold keyMem at hk ⊢
        simpa [hpk] using hk
      exact ih (dictInsert d p.1 p.2) k hkt

theorem GoodVals_upd (u : List (String × String)) :
    ∀ d, GoodVals d → GoodVals u → GoodVals (dictUpd d u) := by
  induction u with
  | nil => intro d hd _; exact hd
  | cons p t ih =>
    intro d hd hu
    unfold dictUpd
    simp only [List.foldl_cons]
    exact ih (dictInsert d p.1 p.2)
      (GoodVals_insert d p.1 p.2 hd (hu p (List.mem_cons_self _ _)))
      (fun q hq => hu q (List.mem_cons_of_mem _ hq))

theorem responseLabel_good (lines : List String) (i : Nat) :
    responseLabel lines i = "POST" ∨ responseLabel lines i = "SEO" := by
  unfold responseLabel
  rcases lines.find? (fun line => matchesIdx i line) with _ | line
  · exact Or.inl rfl
  · by_cases h : strHasSub "SEO" (strUpper line) = true
    · simp [h]
    · simp [h]

theorem foldl_insert_goodvals {α : Type} (f g : α → String)
    (hg : ∀ a, g a = "POST" ∨ g a = "SEO") :
    ∀ (l : List α) (d), GoodVals d →
      GoodVals (l.foldl (fun d a => dictInsert d (f a) (g a)) d) := by
  intro l
  induction l with
  | nil => intro d hd; exact hd
  | cons a t ih =>
    intro d hd
    simp only [List.foldl_cons]
    exact ih _ (GoodVals_insert d (f a) (g a) hd (hg a))

theorem foldl_insert_allpost {α : Type} (f : α → String) :
    ∀ (l : List α) (d), AllPost d →
      AllPost (l.foldl (fun d a => dictInsert d (f a) "POST") d) := by
  intro l
  induction l with
  | nil => intro d hd; exact hd
  | cons a t ih =>
    intro d hd
    simp only [List.foldl_cons]
    refine ih _ ?_
    intro p hp
    rcases mem_dictInsert d (f a) "POST" p hp with h | h
    · exact hd p h
    · rw [h]

theorem foldl_insert_keyMem {α : Type} (f g : α → String) :
    ∀ (l : List α) (d k), (k ∈ l.map f ∨ keyMem d k = true) →
      keyMem (l.foldl (fun d a => dictInsert d (f a) (g a)) d) k = true := by
  intro l
  induction l with
  | nil =>
    intro d k h
    rcases h with h | h
    · simp at h
    · exact h
  | cons a t ih =>
    intro d k h
    simp only [List.foldl_cons]
    rcases h with h | h
    · rcases List.mem_map.mp h with ⟨b, hb, hbk⟩
      rcases List.mem_cons.mp hb with rfl | hbt
      · exact ih _ k (Or.inr (hbk ▸ keyMem_insert_self d (f b) (g b)))
      · exact ih _ k (Or.inl (List.mem_map.mpr ⟨b, hbt, hbk⟩))
    · exact ih _ k (Or.inr (keyMem_insert_mono d (f a) (g a) k h))

theorem foldl_insert_mem {α : Type} (f g : α → String) :
    ∀ (l : List α) (d) (p : String × String),
      p ∈ l.foldl (fun d a => dictInsert d (f a) (g a)) d →
      p ∈ d ∨ p.1 ∈ l.map f := by
  intro l
  induction l with
  | nil => intro d p h; exact Or.inl h
  | cons a t ih =>
    intro d p h
    simp only [List.foldl_cons] at h
    rcases ih _ p h with h | h
    · rcases mem_dictInsert d (f a) (g a) p h with h | h
      · exact Or.inl h
      · right; rw [h]; simp
    · right; exact List.mem_map.mp h |>.elim fun b hb => List.mem_map.mpr ⟨b, List.mem_cons_of_mem _ hb.1, hb.2⟩

theorem AllPost_postDict (urls : List String) : AllPost (postDict urls) := by
  unfold postDict
  exact foldl_insert_allpost (fun u => u) urls [] (fun p hp => absurd hp (List.not_mem_nil p))

theorem keyMem_postDict (urls : List String) (u : String) (h : u ∈ urls) :
    keyMem (postDict urls) u = true := by
  unfold postDict
  exact foldl_insert_keyMem (fun u => u) (fun _ => "POST") urls [] u
    (Or.inl (by simp; exact h))

theorem mem_postDict (urls : List String) (p : String × String)
    (h : p ∈ postDict urls) : p.1 ∈ urls := by
  unfold postDict at h
  rcases foldl_insert_mem (fun u => u) (fun _ => "POST") urls [] p h with h | h
  · exact absurd h (List.not_mem_nil p)
  · simpa using h

theorem GoodVals_parse_response (urls : List String) (answer : String) :
    GoodVals (parse_response urls answer) := by
  unfold parse_response
  exact foldl_insert_goodvals (fun iu => iu.2)
    (fun iu => responseLabel ((splitOnChar '\n' (pyStrip answer).data).map
      (fun l => (⟨l⟩ : String))) iu.1)
    (fun iu => responseLabel_good _ iu.1) urls.enum []
    (fun p hp => absurd hp (List.not_mem_nil p))

theorem enum_map_snd' (urls : List String) :
    urls.enum.map (fun iu => iu.2) = urls :=
  List.enum_map_snd urls

theorem keyMem_parse_response (urls : List String) (answer : String)
    (u : String) (h : u ∈ urls) :
    keyMem (parse_response urls answer) u = true := by
  unfold parse_response
  refine foldl_insert_keyMem (fun iu => iu.2) _ urls.enum [] u (Or.inl ?_)
  rw [enum_map_snd' urls]
  exact h

theorem mem_parse_response (urls : List String) (answer : String)
    (p : String × String) (h : p ∈ parse_response urls answer) : p.1 ∈ urls := by
  unfold parse_response at h
  rcases foldl_insert_mem (fun iu => iu.2) _ urls.enum [] p h with h | h
  · exact absurd h (List.not_mem_nil p)
  · rw [enum_map_snd' urls] at h
    exact h

theorem GoodVals_classify_batch (oracle : List String → BatchOutcome)
    (b : List String) : GoodVals (classify_batch oracle b) := by
  unfold classify_batch
  rcases hb : oracle b with _ | ⟨status, answer⟩
  · show GoodVals (postDict b)
    intro p hp
    exact Or.inl (AllPost_postDict b p hp)
  · show GoodVals (if status = 200 then parse_response b answer else postDict b)
    by_cases hs : status = 200
    · rw [if_pos hs]
      exact GoodVals_parse_response b answer
    · rw [if_neg hs]
      intro p hp
      exact Or.inl (AllPost_postDict b p hp)

theorem keyMem_classify_batch (oracle : List String → BatchOutcome)
    (b : List String) (u : String) (h : u ∈ b) :
    keyMem (classify_batch oracle b) u = true := by
  unfold classify_batch
  rcases hb : oracle b with _ | ⟨status, answer⟩
  · show keyMem (postDict b) u = true
    exact keyMem_postDict b u h
  · show keyMem (if status = 200 then parse_response b answer else postDict b) u = true
    by_cases hs : status = 200
    · rw [if_pos hs]; exact keyMem_parse_response b answer u h
    · rw [if_neg hs]; exact keyMem_postDict b u h

theorem mem_classify_batch (oracle : List String → BatchOutcome)
    (b : List String) (p : String × String)
    (h : p ∈ classify_batch oracle b) : p.1 ∈ b := by
  unfold classify_batch at h
  rcases hb : oracle b with _ | ⟨status, answer⟩ <;> rw [hb] at h
  · exact mem_postDict b p h
  · replace h : p ∈ (if status = 200 then parse_response b answer else postDict b) := h
    by_cases hs : status = 200
    · rw [if_pos hs] at h
      exact mem_parse_response b answer p h
    · rw [if_neg hs] at h
      exact mem_postDict b p h

theorem chunkAux_join {α : Type} (n : Nat) (hn : 0 < n) :
    ∀ (fuel : Nat) (xs : List α), xs.length ≤ fuel →
      (chunkAux fuel n xs).flatten = xs := by
  intro fuel
  induction fuel with
  | zero =>
    intro xs h
    have : xs = [] := List.eq_nil_of_length_eq_zero (Nat.le_zero.mp h)
    subst this; rfl
  | succ m ih =>
    intro xs h
    match xs with
    | [] => rfl
    | x :: rest =>
      show ((x :: rest).take n :: chunkAux m n ((x :: rest).drop n)).flatten = x :: rest
      rw [List.flatten_cons, ih ((x :: rest).drop n) ?_]
      · exact List.take_append_drop n (x :: rest)
      · rw [List.length_drop]
        have hlen : (x :: rest).length ≤ m + 1 := h
        omega

theorem chunkList_join {α : Type} (n : Nat) (hn : 0 < n) (xs : List α) :
    (chunkList n xs).flatten = xs :=
  chunkAux_join n hn xs.length xs (Nat.le_refl _)

theorem chunks_fold_isSome (oracle : List String → BatchOutcome) :
    ∀ (cs : List (List String)) (d : List (String × String)) (u : String),
      (u ∈ cs.flatten ∨ (dictGet? d u).isSome) →
      (dictGet? (cs.foldl (fun res b => dictUpd res (classify_batch oracle b)) d) u).isSome := by
  intro cs
  induction cs with
  | nil =>
    intro d u h
    rcases h with h | h
    · simp at h
    · exact h
  | cons c t ih =>
    intro d u h
    simp only [List.foldl_cons]
    refine ih _ u ?_
    rcases h with h | h
    · rw [List.flatten_cons] at h
      rcases List.mem_append.mp h with h | h
      · exact Or.inr (dictGet?_upd_isSome_of_keyMem _ d u (keyMem_classify_batch oracle c u h))
      · exact Or.inl h
    · exact Or.inr (dictGet?_upd_isSome_pres _ d u h)

theorem classify_batch_postDict (oracle : List String → BatchOutcome)
    (b : List String) (hf : FailsFor oracle b) :
    classify_batch oracle b = postDict b := by
  unfold classify_batch
  rcases hf with hf | ⟨st, ans, hf, hst⟩
  · rw [hf]
  · rw [hf]
    show (if st = 200 then parse_response b ans else postDict b) = postDict b
    rw [if_neg hst]

theorem chunks_fold_post (oracle : List String → BatchOutcome) :
    ∀ (cs : List (List String)) (d : List (String × String)) (u : String),
      (∀ b ∈ cs, u ∈ b → FailsFor oracle b) →
      (u ∈ cs.flatten ∨ dictGet? d u = some "POST") →
      dictGet? (cs.foldl (fun res b => dictUpd res (classify_batch oracle b)) d) u = some "POST" := by
  intro cs
  induction cs with
  | nil =>
    intro d u _ h
    rcases h with h | h
    · simp at h
    · exact h
  | cons c t ih =>
    intro d u hfail h
    simp only [List.foldl_cons]
    refine ih _ u (fun b hb => hfail b (List.mem_cons_of_mem _ hb)) ?_
    by_cases hc : u ∈ c
    · right
      have hcb : classify_batch oracle c = postDict c :=
        classify_batch_postDict oracle c (hfail c (List.mem_cons_self _ _) hc)
      rw [hcb]
      exact dictGet?_upd_post_mem (postDict c) d u (AllPost_postDict c)
        (keyMem_postDict c u hc)
    · rcases h with h | h
      · rw [List.flatten_cons] at h
        rcases List.mem_append.mp h with h | h
        · exact absurd h hc
        · exact Or.inl h
      · right
        rw [dictGet?_upd_ne (classify_batch oracle c) d u ?_]
        · exact h
        · intro p hp he
          exact hc (he ▸ mem_classify_batch oracle c p hp)

theorem phase1Step_post (acc : List (String × String) × List String)
    (u : String) (hp : is_obvious_post u = true) :
    phase1Step acc u = (dictInsert acc.1 u "POST", acc.2) := by
  unfold phase1Step; rw [if_pos hp]

theorem phase1Step_seo (acc : List (String × String) × List String)
    (u : String) (hp : is_obvious_post u = false)
    (hs : is_obvious_seo u = true) :
    phase1Step acc u = (dictInsert acc.1 u "SEO", acc.2) := by
  unfold phase1Step; rw [hp]; simp [hs]

theorem phase1Step_ai (acc : List (String × String) × List String)
    (u : String) (hp : is_obvious_post u = false)
    (hs : is_obvious_seo u = false) :
    phase1Step acc u = (acc.1, acc.2 ++ [u]) := by
  unfold phase1Step; rw [hp, hs]; simp

theorem needAI_cons_post (u : String) (t : List String)
    (hp : is_obvious_post u = true) : needAI (u :: t) = needAI t := by
  unfold needAI; simp [List.filter_cons, hp]

theorem needAI_cons_seo (u : String) (t : List String)
    (hs : is_obvious_seo u = true) : needAI (u :: t) = needAI t := by
  unfold needAI; simp [List.filter_cons, hs]

theorem needAI_cons_ai (u : String) (t : List String)
    (hp : is_obvious_post u = false) (hs : is_obvious_seo u = false) :
    needAI (u :: t) = u :: needAI t := by
  unfold needAI; simp [List.filter_cons, hp, hs]

theorem phase1_snd :
    ∀ (urls : List String) (d : List (String × String)) (r : List String),
      (urls.foldl phase1Step (d, r)).2 = r ++ needAI urls := by
  intro urls
  induction urls with
  | nil => intro d r; simp [needAI]
  | cons u t ih =>
    intro d r
    rw [List.foldl_cons]
    by_cases hp : is_obvious_post u = true
    · rw [phase1Step_post (d, r) u hp, ih, needAI_cons_post u t hp]
    · rw [Bool.not_eq_true] at hp
      by_cases hs : is_obvious_seo u = true
      · rw [phase1Step_seo (d, r) u hp hs, ih, needAI_cons_seo u t hs]
      · rw [Bool.not_eq_true] at hs
        rw [phase1Step_ai (d, r) u hp hs, ih, needAI_cons_ai u t hp hs]
        simp

theorem phase1_goodvals :
    ∀ (urls : List String) (d : List (String × String)) (r : List String),
      GoodVals d → GoodVals (urls.foldl phase1Step (d, r)).1 := by
  intro urls
  induction urls with
  | nil => intro d r hd; exact hd
  | cons u t ih =>
    intro d r hd
    rw [List.foldl_cons]
    by_cases hp : is_obvious_post u = true
    · rw [phase1Step_post (d, r) u hp]
      exact ih _ _ (GoodVals_insert d u "POST" hd (Or.inl rfl))
    · rw [Bool.not_eq_true] at hp
      by_cases hs : is_obvious_seo u = true
      · rw [phase1Step_seo (d, r) u hp hs]
        exact ih _ _ (GoodVals_insert d u "SEO" hd (Or.inr rfl))
      · rw [Bool.not_eq_true] at hs
        rw [phase1Step_ai (d, r) u hp hs]
        exact ih _ _ hd

theorem phase1_isSome_pres :
    ∀ (urls : List String) (d : List (String × String)) (r : List String)
      (u : String), (dictGet? d u).isSome →
      (dictGet? (urls.foldl phase1Step (d, r)).1 u).isSome := by
  intro urls
  induction urls with
  | nil => intro d r u h; exact h
  | cons w t ih =>
    intro d r u h
    rw [List.foldl_cons]
    by_cases hp : is_obvious_post w = true
    · rw [phase1Step_post (d, r) w hp]
      exact ih _ _ u (dictGet?_insert_isSome d w "POST" u h)
    · rw [Bool.not_eq_true] at hp
      by_cases hs : is_obvious_seo w = true
      · rw [phase1Step_seo (d, r) w hp hs]
        exact ih _ _ u (dictGet?_insert_isSome d w "SEO" u h)
      · rw [Bool.not_eq_true] at hs
        rw [phase1Step_ai (d, r) w hp hs]
        exact ih _ _ u h

theorem phase1_isSome_resolved :
    ∀ (urls : List String) (d : List (String × String)) (r : List String)
      (u : String), u ∈ urls → (is_obvious_post u || is_obvious_seo u) = true →
      (dictGet? (urls.foldl phase1Step (d, r)).1 u).isSome := by
  intro urls
  induction urls with
  | nil => intro d r u h _; exact absurd h (List.not_mem_nil u)
  | cons w t ih =>
    intro d r u hmem hres
    rw [List.foldl_cons]
    rcases List.mem_cons.mp hmem with rfl | hmt
    · by_cases hp : is_obvious_post u = true
      · rw [phase1Step_post (d, r) u hp]
        refine phase1_isSome_pres t _ r u ?_
        rw [dictGet?_insert_self]; rfl
      · rw [Bool.not_eq_true] at hp
        have hs : is_obvious_seo u = true := by
          simp only [hp, Bool.false_or] at hres
          exact hres
        rw [phase1Step_seo (d, r) u hp hs]
        refine phase1_isSome_pres t _ r u ?_
        rw [dictGet?_insert_self]; rfl
    · by_cases hp : is_obvious_post w = true
      · rw [phase1Step_post (d, r) w hp]
        exact ih _ _ u hmt hres
      · rw [Bool.not_eq_true] at hp
        by_cases hs : is_obvious_seo w = true
        · rw [phase1Step_seo (d, r) w hp hs]
          exact ih _ _ u hmt hres
        · rw [Bool.not_eq_true] at hs
          rw [phase1Step_ai (d, r) w hp hs]
          exact ih _ _ u hmt hres

theorem GoodVals_get (d : List (String × String)) (hd : GoodVals d)
    (k v : String) (h : dictGet? d k = some v) : v = "POST" ∨ v = "SEO" := by
  unfold dictGet? at h
  rcases hf : d.find? (fun p => p.1 = k) with _ | p
  · rw [hf] at h; simp at h
  · rw [hf] at h
    simp only [Option.map_some'] at h
    have hm := hd p (List.mem_of_find?_eq_some hf)
    rw [← Option.some_inj.mp h]
    exact hm

theorem chunks_fold_goodvals (oracle : List String → BatchOutcome) :
    ∀ (cs : List (List String)) (d : List (String × String)), GoodVals d →
      GoodVals (cs.foldl (fun res b => dictUpd res (classify_batch oracle b)) d) := by
  intro cs
  induction cs with
  | nil => intro d hd; exact hd
  | cons c t ih =>
    intro d hd
    rw [List.foldl_cons]
    exact ih _ (GoodVals_upd (classify_batch oracle c) d hd
      (GoodVals_classify_batch oracle c))

theorem mem_needAI (urls : List String) (url : String) (hmem : url ∈ urls)
    (hp : is_obvious_post url = false) (hs : is_obvious_seo url = false) :
    url ∈ needAI urls := by
  unfold needAI
  exact List.mem_filter.mpr ⟨hmem, by simp [hp, hs]⟩

/-- C2: if every Stage 3 batch call whose batch contains a given
unresolved URL fails (raised exception, or a non-200 HTTP status),
`classify_urls` still completes and maps that URL to `"POST"`; no
failure propagates to the caller — the embedded pipeline is a total
function. -/
theorem classify_urls_fail_post (oracle : List String → BatchOutcome)
    (urls : List String) (bs : Nat) (hbs : 0 < bs) (url : String)
    (hmem : url ∈ urls)
    (hp : is_obvious_post url = false) (hs : is_obvious_seo url = false)
    (hfail : ∀ b ∈ chunkList bs (needAI urls), url ∈ b → FailsFor oracle b) :
    dictGet? (classify_urls oracle urls bs) url = some "POST" := by
  simp only [classify_urls]
  have h2 : (urls.foldl phase1Step ([], [])).2 = needAI urls := by
    rw [phase1_snd urls [] [], List.nil_append]
  rw [h2]
  refine chunks_fold_post oracle _ _ url hfail (Or.inl ?_)
  rw [chunkList_join bs hbs]
  exact mem_needAI urls url hmem hp hs

/-- C3: for every input list, every URL in it and every abstracted
Stage 3 batch oracle, `classify_urls` assigns the URL exactly one
label, and that label is `"SEO"` (the spec's LISTING) or `"POST"`. -/
theorem classify_urls_total (oracle : List String → BatchOutcome)
    (urls : List String) (bs : Nat) (hbs : 0 < bs) (url : String)
    (hmem : url ∈ urls) :
    ∃ v, dictGet? (classify_urls oracle urls bs) url = some v ∧
      (v = "SEO" ∨ v = "POST") := by
  have hgood : GoodVals (classify_urls oracle urls bs) := by
    simp only [classify_urls]
    refine chunks_fold_goodvals oracle _ _ ?_
    exact phase1_goodvals urls [] [] (fun p hp => absurd hp (List.not_mem_nil p))
  have hsome : (dictGet? (classify_urls oracle urls bs) url).isSome := by
    simp only [classify_urls]
    by_cases hres : (is_obvious_post url || is_obvious_seo url) = true
    · exact chunks_fold_isSome oracle _ _ url
        (Or.inr (phase1_isSome_resolved urls [] [] url hmem hres))
    · have h2 : (urls.foldl phase1Step ([], [])).2 = needAI urls := by
        rw [phase1_snd urls [] [], List.nil_append]
      rw [h2]
      refine chunks_fold_isSome oracle _ _ url (Or.inl ?_)
      rw [chunkList_join bs hbs]
      simp only [Bool.or_eq_true, not_or, Bool.not_eq_true] at hres
      exact mem_needAI urls url hmem hres.1 hres.2
  rcases Option.isSome_iff_exists.mp hsome with ⟨v, hv⟩
  refine ⟨v, hv, (GoodVals_get _ hgood url v hv).symm⟩

theorem filterStep_C7 (sc : String → Nat) (strict : Bool) (cap : Nat)
    (st : FState) (item : Item)
    (h1 : ∀ i ∈ st.filtered, _normalize_url i.url ∈ st.seen)
    (h2 : st.filtered.Pairwise fun a b => _normalize_url a.url ≠ _normalize_url b.url) :
    (∀ i ∈ (filterStep sc strict cap st item).filtered,
      _normalize_url i.url ∈ (filterStep sc strict cap st item).seen) ∧
    (filterStep sc strict cap st item).filtered.Pairwise
      (fun a b => _normalize_url a.url ≠ _normalize_url b.url) := by
  simp only [filterStep]
  split_ifs with hempty hseen hcap hsys hlist hstrict
  · exact ⟨h1, h2⟩
  · exact ⟨h1, h2⟩
  · exact ⟨fun i hi => List.mem_cons_of_mem _ (h1 i hi), h2⟩
  · exact ⟨fun i hi => List.mem_cons_of_mem _ (h1 i hi), h2⟩
  · exact ⟨fun i hi => List.mem_cons_of_mem _ (h1 i hi), h2⟩
  · exact ⟨fun i hi => List.mem_cons_of_mem _ (h1 i hi), h2⟩
  · constructor
    · intro i hi
      rcases List.mem_append.mp hi with hi | hi
      · exact List.mem_cons_of_mem _ (h1 i hi)
      · simp only [List.mem_singleton] at hi
        subst hi
      
        exact List.mem_cons_self _ _
    · rw [List.pairwise_append]
      refine ⟨h2, List.pairwise_singleton _ _, ?_⟩
      intro a ha b hb
      simp only [List.mem_singleton] at hb
      subst hb
      intro he
      have hmem : _normalize_url (splitHash item.url) ∈ st.seen := by
        rw [← he]
        exact h1 a ha
      exact hseen (List.elem_eq_true_of_mem hmem)

theorem foldl_filterStep_C7 (sc : String → Nat) (strict : Bool) (cap : Nat) :
    ∀ (l : List Item) (st : FState),
      (∀ i ∈ st.filtered, _normalize_url i.url ∈ st.seen) →
      st.filtered.Pairwise (fun a b => _normalize_url a.url ≠ _normalize_url b.url) →
      (∀ i ∈ (l.foldl (filterStep sc strict cap) st).filtered,
        _normalize_url i.url ∈ (l.foldl (filterStep sc strict cap) st).seen) ∧
      (l.foldl (filterStep sc strict cap) st).filtered.Pairwise
        (fun a b => _normalize_url a.url ≠ _normalize_url b.url) := by
  intro l
  induction l with
  | nil => intro st h1 h2; exact ⟨h1, h2⟩
  | cons item t ih =>
    intro st h1 h2
    rw [List.foldl_cons]
    have hstep := filterStep_C7 sc strict cap st item h1 h2
    exact ih _ hstep.1 hstep.2

/-- C7: no two entries of a `filter_urls` output share the same
`_normalize_url` duplicate-suppression key (tracking keys stripped,
query keys sorted, first value per key, fragment dropped); in
particular no two output entries share both the normalized URL and the
domain. -/
theorem filter_urls_distinct_keys (urls : List Item) (strict : Bool) (cap : Nat) :
    (filter_urls urls strict cap).Pairwise
      (fun a b => _normalize_url a.url ≠ _normalize_url b.url) := by
  unfold filter_urls
  exact (foldl_filterStep_C7 (structCounts urls) strict cap urls
    ⟨[], [], fun _ => 0⟩ (fun i hi => absurd hi (List.not_mem_nil i))
    List.Pairwise.nil).2

theorem countHost_append_single (h : String) (f : List Item) (x : Item) :
    countHost h (f ++ [x]) =
      countHost h f + (if (urlparse x.url).netloc = h then 1 else 0) := by
  unfold countHost
  rw [List.filter_append, List.length_append]
  congr 1
  by_cases hx : (urlparse x.url).netloc = h
  · simp [hx]
  · simp [hx]

theorem filterStep_cap (sc : String → Nat) (strict : Bool) (cap : Nat)
    (st : FState) (item : Item) (h : String)
    (hinv : st.counts h = countHost h st.filtered ∧ st.counts h ≤ cap) :
    (filterStep sc strict cap st item).counts h =
      countHost h (filterStep sc strict cap st item).filtered ∧
    (filterStep sc strict cap st item).counts h ≤ cap := by
  simp only [filterStep]
  split_ifs with hempty hseen hcap hsys hlist hstrict
  · exact hinv
  · exact hinv
  · exact hinv
  · exact hinv
  · exact hinv
  · exact hinv
  · constructor
    · show (if h = (urlparse (splitHash item.url)).netloc
          then st.counts h + 1 else st.counts h) = _
      rw [countHost_append_single]
      by_cases hd : h = (urlparse (splitHash item.url)).netloc
      · rw [if_pos hd, hinv.1, if_pos hd.symm]
      · rw [if_neg hd, hinv.1, if_neg (fun e => hd e.symm)]
        omega
    · show (if h = (urlparse (splitHash item.url)).netloc
          then st.counts h + 1 else st.counts h) ≤ cap
      by_cases hd : h = (urlparse (splitHash item.url)).netloc
      · rw [if_pos hd]
        have : st.counts (urlparse (splitHash item.url)).netloc < cap :=
          Nat.lt_of_not_le hcap
        rw [hd] at *
        omega
      · rw [if_neg hd]
        exact hinv.2

theorem foldl_filterStep_cap (sc : String → Nat) (strict : Bool) (cap : Nat)
    (h : String) :
    ∀ (l : List Item) (st : FState),
      st.counts h = countHost h st.filtered ∧ st.counts h ≤ cap →
      (l.foldl (filterStep sc strict cap) st).counts h =
        countHost h (l.foldl (filterStep sc strict cap) st).filtered ∧
      (l.foldl (filterStep sc strict cap) st).counts h ≤ cap := by
  intro l
  induction l with
  | nil => intro st hinv; exact hinv
  | cons item t ih =>
    intro st hinv
    rw [List.foldl_cons]
    exact ih _ (filterStep_cap sc strict cap st item h hinv)

theorem filter_urls_cap (urls : List Item) (strict : Bool) (cap : Nat)
    (h : String) : countHost h (filter_urls urls strict cap) ≤ cap := by
  unfold filter_urls
  have := foldl_filterStep_cap (structCounts urls) strict cap h urls
    ⟨[], [], fun _ => 0⟩ ⟨by simp [countHost], Nat.zero_le cap⟩
  rw [← this.1]
  exact this.2

theorem mem_insertDesc (x z : Item × Int) :
    ∀ l : List (Item × Int), z ∈ insertDesc x l ↔ z = x ∨ z ∈ l := by
  intro l
  induction l with
  | nil => simp [insertDesc]
  | cons y ys ih =>
    unfold insertDesc
    by_cases hle : x.2 ≤ y.2
    · rw [if_pos hle]
      simp only [List.mem_cons, ih]
      tauto
    · rw [if_neg hle]
      simp only [List.mem_cons]

theorem insertDesc_sorted (x : Item × Int) :
    ∀ l : List (Item × Int), SortedDesc l → SortedDesc (insertDesc x l) := by
  intro l
  induction l with
  | nil => intro _; exact List.pairwise_singleton _ _
  | cons y ys ih =>
    intro hs
    rcases List.pairwise_cons.mp hs with ⟨hrel, htail⟩
    unfold insertDesc
    by_cases hle : x.2 ≤ y.2
    · rw [if_pos hle]
      refine List.pairwise_cons.mpr ⟨?_, ih htail⟩
      intro z hz
      rcases (mem_insertDesc x z ys).mp hz with rfl | hz
      · exact hle
      · exact hrel z hz
    · rw [if_neg hle]
      refine List.pairwise_cons.mpr ⟨?_, hs⟩
      intro z hz
      rcases List.mem_cons.mp hz with rfl | hz
      · exact le_of_lt (not_le.mp hle)
      · exact le_trans (hrel z hz) (le_of_lt (not_le.mp hle))

theorem mem_sortScored_aux (z : Item × Int) :
    ∀ (l acc : List (Item × Int)),
      z ∈ l.foldl (fun acc x => insertDesc x acc) acc ↔ z ∈ acc ∨ z ∈ l := by
  intro l
  induction l with
  | nil => simp
  | cons x t ih =>
    intro acc
    rw [List.foldl_cons, ih]
    rw [mem_insertDesc]
    simp only [List.mem_cons]
    tauto

theorem mem_sortScored (z : Item × Int) (l : List (Item × Int)) :
    z ∈ sortScored l ↔ z ∈ l := by
  unfold sortScored
  rw [mem_sortScored_aux]
  simp

theorem sortScored_sorted (l : List (Item × Int)) : SortedDesc (sortScored l) := by
  unfold sortScored
  suffices h : ∀ (t acc : List (Item × Int)), SortedDesc acc →
      SortedDesc (t.foldl (fun acc x => insertDesc x acc) acc) by
    exact h l [] List.Pairwise.nil
  intro t
  induction t with
  | nil => intro acc h; exact h
  | cons x xs ih =>
    intro acc h
    rw [List.foldl_cons]
    exact ih _ (insertDesc_sorted x acc h)

theorem insertDesc_of_le (x : Item × Int) :
    ∀ l : List (Item × Int), (∀ y ∈ l, x.2 ≤ y.2) → insertDesc x l = l ++ [x] := by
  intro l
  induction l with
  | nil => intro _; rfl
  | cons y ys ih =>
    intro hle
    unfold insertDesc
    rw [if_pos (hle y (List.mem_cons_self _ _)),
      ih (fun z hz => hle z (List.mem_cons_of_mem _ hz))]
    rfl

theorem sortScored_of_sorted_aux :
    ∀ (l acc : List (Item × Int)), SortedDesc (acc ++ l) →
      l.foldl (fun acc x => insertDesc x acc) acc = acc ++ l := by
  intro l
  induction l with
  | nil => intro acc _; simp
  | cons x t ih =>
    intro acc h
    rw [List.foldl_cons]
    have hx : ∀ y ∈ acc, x.2 ≤ y.2 := by
      intro y hy
      have := (List.pairwise_append.mp h).2.2 y hy x (List.mem_cons_self _ _)
      exact this
    rw [insertDesc_of_le x acc hx]
    rw [ih (acc ++ [x]) (by simpa using h)]
    simp

theorem sortScored_of_sorted (l : List (Item × Int)) (h : SortedDesc l) :
    sortScored l = l := by
  unfold sortScored
  rw [sortScored_of_sorted_aux l [] (by simpa using h)]
  simp

theorem map_fst_recover :
    ∀ l : List (Item × Int),
      (∀ p ∈ l, p.2 = calculate_score p.1.url p.1.title p.1.snippet) →
      (l.map (·.1)).map
        (fun i => (i, calculate_score i.url i.title i.snippet)) = l := by
  intro l
  induction l with
  | nil => intro _; rfl
  | cons p t ih =>
    intro h
    simp only [List.map_cons]
    rw [ih (fun q hq => h q (List.mem_cons_of_mem _ hq))]
    have hp := h p (List.mem_cons_self _ _)
    have : (p.1, calculate_score p.1.url p.1.title p.1.snippet) = p := by
      rw [← hp]
    rw [this]

theorem smart_filter_spec (urls : List Item) (ms : Int) (tn : Option Nat) :
    ∃ pl : List (Item × Int),
      smart_filter_urls urls ms tn = pl.map (·.1) ∧
      (∀ p ∈ pl, p.2 = calculate_score p.1.url p.1.title p.1.snippet ∧ ms ≤ p.2) ∧
      SortedDesc pl ∧
      (∀ n, tn = some n → n ≠ 0 → pl.length ≤ n) := by
  have hmem : ∀ p ∈ sortScored ((urls.map fun i =>
      (i, calculate_score i.url i.title i.snippet)).filter fun p => ms ≤ p.2),
      p.2 = calculate_score p.1.url p.1.title p.1.snippet ∧ ms ≤ p.2 := by
    intro p hp
    rw [mem_sortScored] at hp
    have hf := List.mem_filter.mp hp
    rcases List.mem_map.mp hf.1 with ⟨i, _, rfl⟩
    exact ⟨rfl, by simpa using hf.2⟩
  have hsort := sortScored_sorted ((urls.map fun i =>
    (i, calculate_score i.url i.title i.snippet)).filter fun p => ms ≤ p.2)
  rcases tn with _ | n
  · have he : smart_filter_urls urls ms none =
        (sortScored ((urls.map fun i =>
          (i, calculate_score i.url i.title i.snippet)).filter
            fun p => ms ≤ p.2)).map (·.1) := rfl
    exact ⟨_, he, hmem, hsort, fun n hn => by cases hn⟩
  · by_cases hn : n = 0
    · subst hn
      have he : smart_filter_urls urls ms (some 0) =
          (sortScored ((urls.map fun i =>
            (i, calculate_score i.url i.title i.snippet)).filter
              fun p => ms ≤ p.2)).map (·.1) := rfl
      exact ⟨_, he, hmem, hsort,
        fun m hm hne => by cases hm; exact absurd rfl hne⟩
    · have he : smart_filter_urls urls ms (some n) =
          ((sortScored ((urls.map fun i =>
            (i, calculate_score i.url i.title i.snippet)).filter
              fun p => ms ≤ p.2)).take n).map (·.1) := by
        simp only [smart_filter_urls]
        rw [if_pos hn]
      refine ⟨_, he, ?_, ?_, ?_⟩
      · intro p hp
        exact hmem p ((List.take_sublist n _).mem hp)
      · exact hsort.sublist (List.take_sublist n _)
      · intro m hm hne
        cases hm
        exact List.length_take_le n _

/-- C9: the score-based ranker is idempotent — applying
`smart_filter_urls` to its own output with the same `min_score` and
`top_n` yields the identical list, in the same order. -/
theorem smart_filter_urls_idem (urls : List Item) (ms : Int) (tn : Option Nat) :
    smart_filter_urls (smart_filter_urls urls ms tn) ms tn =
      smart_filter_urls urls ms tn := by
  obtain ⟨pl, hout, hp, hsort, hlen⟩ := smart_filter_spec urls ms tn
  rw [hout]
  have h1 : (pl.map (·.1)).map
      (fun i => (i, calculate_score i.url i.title i.snippet)) = pl :=
    map_fst_recover pl (fun p hp' => (hp p hp').1)
  have h2 : pl.filter (fun p => decide (ms ≤ p.2)) = pl :=
    List.filter_eq_self.mpr (fun p hp' => by simp [(hp p hp').2])
  have h3 : sortScored pl = pl := sortScored_of_sorted pl hsort
  simp only [smart_filter_urls]
  rw [h1, h2, h3]
  rcases tn with _ | n
  · rfl
  · rw [show (match (some n : Option Nat) with
        | some n => if n ≠ 0 then List.take n pl else pl
        | none => pl) = if n ≠ 0 then List.take n pl else pl from rfl]
    by_cases hn : n = 0
    · subst hn
      simp
    · rw [if_pos hn, List.take_of_length_le (hlen n rfl hn)]

theorem splitOnChar_ne_nil (c : Char) :
    ∀ l : List Char, ∃ h t, splitOnChar c l = h :: t := by
  intro l
  induction l with
  | nil => exact ⟨[], [], rfl⟩
  | cons x xs ih =>
    by_cases hx : x = c
    · exact ⟨[], splitOnChar c xs, by simp [splitOnChar, hx]⟩
    · rcases ih with ⟨h, t, ih⟩
      exact ⟨x :: h, t, by simp [splitOnChar, hx, ih]⟩

theorem splitOnChar_cons_pos (c : Char) (xs : List Char) :
    splitOnChar c (c :: xs) = [] :: splitOnChar c xs := by
  simp [splitOnChar]

theorem splitOnChar_cons_neg (c x : Char) (xs : List Char)
    (h : List Char) (t : List (List Char)) (hx : x ≠ c)
    (hs : splitOnChar c xs = h :: t) :
    splitOnChar c (x :: xs) = (x :: h) :: t := by
  simp [splitOnChar, hx, hs]

theorem splitOnChar_append (c : Char) :
    ∀ (a b : List Char),
      splitOnChar c (a ++ c :: b) = splitOnChar c a ++ splitOnChar c b := by
  intro a b
  induction a with
  | nil => simp [splitOnChar]
  | cons x xs ih =>
    by_cases hx : x = c
    · subst hx
      rw [List.cons_append, splitOnChar_cons_pos, splitOnChar_cons_pos, ih,
        List.cons_append]
    · rcases splitOnChar_ne_nil c xs with ⟨h, t, hs⟩
      have hs2 : splitOnChar c (xs ++ c :: b) = h :: (t ++ splitOnChar c b) := by
        rw [ih, hs]; rfl
      rw [List.cons_append, splitOnChar_cons_neg c x _ _ _ hx hs2,
        splitOnChar_cons_neg c x _ _ _ hx hs]
      rfl

theorem qslFields_acc (kb : Bool) :
    ∀ (fields : List (List Char)) (acc : List (String × String)),
      fields.foldr (fun field acc =>
        match qslField kb field with
        | none => acc
        | some p => p :: acc) acc =
      (fields.foldr (fun field acc =>
        match qslField kb field with
        | none => acc
        | some p => p :: acc) []) ++ acc := by
  intro fields
  induction fields with
  | nil => intro acc; rfl
  | cons f fs ih =>
    intro acc
    simp only [List.foldr_cons]
    rcases hf : qslField kb f with _ | p
    · exact ih acc
    · rw [ih acc, ih []]
      rfl

theorem parse_qsl_joinAmp (kb : Bool) (q f : String) :
    parse_qsl kb (joinAmp q f) = parse_qsl kb q ++ parse_qsl kb f := by
  unfold joinAmp
  by_cases hq : q.isEmpty
  · rw [if_pos hq]
    rw [(String.isEmpty_iff q).mp hq]
    rfl
  · rw [if_neg hq]
    unfold parse_qsl
    have hdata : (q ++ "&" ++ f).data = q.data ++ '&' :: f.data := by
      rw [String.data_append, String.data_append, List.append_assoc]
      rfl
    rw [hdata, splitOnChar_append]
    rw [List.foldr_append]
    rw [qslFields_acc]

theorem hasQ_append (l1 l2 : List (String × String)) (k : String) :
    hasQ (l1 ++ l2) k = (hasQ l1 k || hasQ l2 k) := by
  simp [hasQ, List.any_append]

theorem firstQ_append_single_ne (l : List (String × String)) (kk v k : String)
    (h : k ≠ kk) : firstQ (l ++ [(kk, v)]) k = firstQ l k := by
  unfold firstQ
  rw [find?_append_single_ne kk v k h l]

theorem scoreCore_filter_param (path text : String)
    (qsl : List (String × String)) (k : String)
    (hk : k ∈ filter_params)
    (hnone : ∀ p ∈ filter_params, hasQ qsl p = false) :
    scoreCore path (qsl ++ [(k, "1")]) text = scoreCore path qsl text - 80 := by
  have hkb : k ≠ "bo_table" := by
    intro e; subst e; exact absurd hk (by decide)
  have hkw : k ≠ "wr_id" := by
    intro e; subst e; exact absurd hk (by decide)
  have hbo : hasQ (qsl ++ [(k, "1")]) "bo_table" = hasQ qsl "bo_table" := by
    rw [hasQ_append]
    have h0 : hasQ [(k, "1")] "bo_table" = false := by
      simp [hasQ, hkb]
    rw [h0, Bool.or_false]
  have hwr : hasQ (qsl ++ [(k, "1")]) "wr_id" = hasQ qsl "wr_id" := by
    rw [hasQ_append]
    have h0 : hasQ [(k, "1")] "wr_id" = false := by
      simp [hasQ, hkw]
    rw [h0, Bool.or_false]
  have hfq : firstQ (qsl ++ [(k, "1")]) "bo_table" = firstQ qsl "bo_table" :=
    firstQ_append_single_ne qsl k "1" "bo_table" (Ne.symm hkb)
  have h7 : (filter_params.any fun p => hasQ (qsl ++ [(k, "1")]) p) = true := by
    refine List.any_eq_true.mpr ⟨k, hk, ?_⟩
    rw [hasQ_append]
    simp [hasQ]
  have h7' : (filter_params.any fun p => hasQ qsl p) = false := by
    rw [List.any_eq_false]
    intro p hp
    simp [hnone p hp]
  simp only [scoreCore]
  rw [hbo, hwr, hfq, h7, h7']
  simp only [if_true, if_false, Bool.false_eq_true]
  ring

/-- C4 (amended): attaching a pagination-family query key (`sca`,
`page`, `sfl`, `stx`, `sop`, `sst`, `sod`) to a URL whose query carries
none of those keys lowers `calculate_score` by exactly 80, hence
strictly.  The original claim quantified over all base URLs; it fails
when the base query already carries a pagination key, because the
penalty is match-any apply-once (see the counterexample). -/
theorem calculate_score_pagination_penalty (u u' t s k : String)
    (hk : k ∈ filter_params)
    (hpath : (urlparse u').path = (urlparse u).path)
    (hquery : (urlparse u').query = joinAmp (urlparse u).query (k ++ "=1"))
    (hnone : ∀ p ∈ filter_params,
      hasQ (parse_qsl false (urlparse u).query) p = false) :
    calculate_score u' t s = calculate_score u t s - 80 ∧
    calculate_score u' t s < calculate_score u t s := by
  have hone : parse_qsl false (k ++ "=1") = [(k, "1")] := by
    simp only [filter_params] at hk
    fin_cases hk <;> rfl
  have hqsl : parse_qsl false (urlparse u').query =
      parse_qsl false (urlparse u).query ++ [(k, "1")] := by
    rw [hquery, parse_qsl_joinAmp, hone]
  have heq : calculate_score u' t s = calculate_score u t s - 80 := by
    unfold calculate_score scoreOfParsed
    rw [hpath, hqsl]
    exact scoreCore_filter_param _ _ _ k hk hnone
  exact ⟨heq, by rw [heq]; omega⟩

theorem takeWhile_idem {α : Type} (p : α → Bool) :
    ∀ l : List α, (l.takeWhile p).takeWhile p = l.takeWhile p := by
  intro l
  induction l with
  | nil => rfl
  | cons x xs ih =>
    by_cases hx : p x = true
    · simp [List.takeWhile_cons, hx, ih]
    · simp [List.takeWhile_cons, hx]

theorem urlparse_splitHash (s : String) : urlparse (splitHash s) = urlparse s := by
  unfold urlparse splitHash
  show urlparseCore ((⟨s.data.takeWhile (· ≠ '#')⟩ : String).data.takeWhile (· ≠ '#')) = _
  rw [show (⟨s.data.takeWhile (· ≠ '#')⟩ : String).data = s.data.takeWhile (· ≠ '#') from rfl]
  rw [takeWhile_idem]

theorem splitHash_idem (s : String) : splitHash (splitHash s) = splitHash s := by
  unfold splitHash
  rw [show (⟨s.data.takeWhile (· ≠ '#')⟩ : String).data = s.data.takeWhile (· ≠ '#') from rfl]
  rw [takeWhile_idem]

theorem urlparseCore_netloc (l : List Char) :
    (urlparseCore l).netloc = (netlocSplit (schemeSplit l).2).1 := by
  simp only [urlparseCore]
  rcases h : splitAtChar '?' (netlocSplit (schemeSplit l).2).2 with _ | pq <;>
    rfl

theorem urlparseCore_scheme (l : List Char) :
    (urlparseCore l).scheme = (schemeSplit l).1 := by
  simp only [urlparseCore]
  rcases h : splitAtChar '?' (netlocSplit (schemeSplit l).2).2 with _ | pq <;>
    rfl

theorem netlocSplit_no_specials (m : List Char) :
    ∀ c ∈ (netlocSplit m).1.data, (c = '/' ∨ c = '?' ∨ c = '#') → False := by
  unfold netlocSplit
  split
  · intro c hc
    have := List.mem_takeWhile_imp hc
    intro hor
    rcases hor with h | h | h <;> simp [h] at this
  · intro c hc
    simp at hc

theorem char_toNat_ofNat (n : Nat) (h : n.isValidChar) :
    (Char.ofNat n).toNat = n := by
  unfold Char.ofNat
  rw [dif_pos h]
  show (BitVec.ofNatLt n _).toNat = n
  exact BitVec.toNat_ofNatLt _ _

theorem char_toLower_ne_colon (c : Char) (hc : c ≠ ':') : c.toLower ≠ ':' := by
  intro h
  simp only [Char.toLower] at h
  split at h
  case isTrue hcond =>
    have hv : (c.toNat + 32).isValidChar := Or.inl (by omega)
    have h2 := congrArg Char.toNat h
    rw [char_toNat_ofNat _ hv] at h2
    have h58 : (':' : Char).toNat = 58 := rfl
    rw [h58] at h2
    omega
  case isFalse => exact hc h

theorem scheme_no_colon (l : List Char) :
    ∀ c ∈ (schemeSplit l).1.data, c ≠ ':' := by
  rcases h : splitAtChar ':' l with _ | prepost
  · simp only [schemeSplit, h]
    intro c hc
    simp at hc
  · rcases prepost with ⟨pre, post⟩
    rcases pre with _ | ⟨p, ps⟩
    · simp only [schemeSplit, h]
      intro c hc
      simp at hc
    · simp only [schemeSplit, h]
      by_cases hcond : (p.isAlpha && ps.all isSchemeChar) = true
      · rw [if_pos hcond]
        intro c hc
        simp only [strLower] at hc
        rcases List.mem_map.mp hc with ⟨c0, hc0, rfl⟩
        apply char_toLower_ne_colon
        have hand := (Bool.and_eq_true _ _).mp hcond
        rcases List.mem_cons.mp hc0 with rfl | hc0
        · intro e
          rw [e] at hand
          exact absurd hand.1 (by decide)
        · intro e
          have h2 := List.all_eq_true.mp hand.2 _ hc0
          rw [e] at h2
          exact absurd h2 (by decide)
      · rw [if_neg hcond]
        intro c hc
        simp at hc

theorem dropWhile_append_stop {α : Type} (p : α → Bool) :
    ∀ (a : List α) (x : α) (b : List α), (∀ y ∈ a, p y = true) →
      p x = false → (a ++ x :: b).dropWhile p = x :: b := by
  intro a
  induction a with
  | nil =>
    intro x b _ hx
    simp [List.dropWhile, hx]
  | cons y ys ih =>
    intro x b ha hx
    rw [List.cons_append, List.dropWhile_cons]
    rw [ha y (List.mem_cons_self _ _)]
    simp only [if_true]
    exact ih x b (fun z hz => ha z (List.mem_cons_of_mem _ hz)) hx

theorem takeWhile_append_stop {α : Type} (p : α → Bool) :
    ∀ (a b : List α), (∀ y ∈ a, p y = true) →
      (b = [] ∨ ∃ h t, b = h :: t ∧ p h = false) →
      (a ++ b).takeWhile p = a := by
  intro a
  induction a with
  | nil =>
    intro b _ hb
    rcases hb with rfl | ⟨h, t, rfl, hh⟩
    · rfl
    · simp [List.takeWhile_cons, hh]
  | cons y ys ih =>
    intro b ha hb
    rw [List.cons_append, List.takeWhile_cons]
    rw [ha y (List.mem_cons_self _ _)]
    simp only [if_true]
    rw [ih b (fun z hz => ha z (List.mem_cons_of_mem _ hz)) hb]

theorem splitAtChar_none_eq (c : Char) :
    ∀ l : List Char, splitAtChar c l = none → ∀ x ∈ l, x ≠ c := by
  intro l
  induction l with
  | nil => intro _ x hx; simp at hx
  | cons y ys ih =>
    intro h x hx
    unfold splitAtChar at h
    by_cases hy : y = c
    · rw [if_pos hy] at h; simp at h
    · rw [if_neg hy] at h
      rcases List.mem_cons.mp hx with rfl | hx
      · exact hy
      · rcases hs : splitAtChar c ys with _ | pq
        · exact ih hs x hx
        · rw [hs] at h; simp at h

theorem splitAtChar_some_eq (c : Char) :
    ∀ (l p q : List Char), splitAtChar c l = some (p, q) →
      l = p ++ c :: q ∧ ∀ x ∈ p, x ≠ c := by
  intro l
  induction l with
  | nil => intro p q h; simp [splitAtChar] at h
  | cons y ys ih =>
    intro p q h
    unfold splitAtChar at h
    by_cases hy : y = c
    · rw [if_pos hy] at h
      simp only [Option.some_inj] at h
      injection h with h1 h2
      subst h1
      subst h2
      refine ⟨by rw [hy]; rfl, ?_⟩
      intro x hx
      simp at hx
    · rw [if_neg hy] at h
      rcases hs : splitAtChar c ys with _ | ⟨p0, q0⟩
      · rw [hs] at h; simp at h
      · rw [hs] at h
        simp only [Option.map_some', Option.some_inj] at h
        rcases ih p0 q0 hs with ⟨he, hp0⟩
        injection h with h1 h2
        subst h1
        subst h2
        constructor
        · rw [he]
          rfl
        · intro x hx
          rcases List.mem_cons.mp hx with rfl | hx
          · exact hy
          · exact hp0 x hx

theorem dropWhile_head_false {α : Type} (p : α → Bool) :
    ∀ l : List α, l.dropWhile p = [] ∨
      ∃ h t, l.dropWhile p = h :: t ∧ p h = false := by
  intro l
  induction l with
  | nil => exact Or.inl rfl
  | cons y ys ih =>
    rw [List.dropWhile_cons]
    by_cases hy : p y = true
    · rw [hy]; simpa using ih
    · rw [Bool.not_eq_true] at hy
      rw [hy]
      exact Or.inr ⟨y, ys, rfl, hy⟩

theorem sepPred_false_cases (c : Char)
    (h : (!(c = '/' || c = '?' || c = '#')) = false) :
    c = '/' ∨ c = '?' ∨ c = '#' := by
  simp only [Bool.not_eq_false', Bool.or_eq_true, decide_eq_true_eq] at h
  tauto

theorem schemeSplit_snd_subset (l : List Char) :
    ∀ c ∈ (schemeSplit l).2, c ∈ l := by
  rcases h : splitAtChar ':' l with _ | ⟨pre, post⟩
  · simp only [schemeSplit, h]
    intro c hc
    exact hc
  · rcases pre with _ | ⟨p, ps⟩
    · simp only [schemeSplit, h]
      intro c hc
      exact hc
    · simp only [schemeSplit, h]
      by_cases hcond : (p.isAlpha && ps.all isSchemeChar) = true
      · rw [if_pos hcond]
        intro c hc
        have he := (splitAtChar_some_eq ':' l _ _ h).1
        rw [he]
        exact List.mem_append_right _ (List.mem_cons_of_mem _ hc)
      · rw [if_neg hcond]
        intro c hc
        exact hc

theorem netlocSplit_cases (m : List Char) :
    netlocSplit m = ("", m) ∨
    ∃ rest, m = '/' :: '/' :: rest ∧
      netlocSplit m =
        (⟨rest.takeWhile (fun c => !(c = '/' || c = '?' || c = '#'))⟩,
         rest.dropWhile (fun c => !(c = '/' || c = '?' || c = '#'))) := by
  unfold netlocSplit
  split
  · next rest => exact Or.inr ⟨rest, rfl, rfl⟩
  · exact Or.inl rfl

theorem urlparseCore_path_none (l : List Char)
    (h : splitAtChar '?' (netlocSplit (schemeSplit l).2).2 = none) :
    (urlparseCore l).path = ⟨(netlocSplit (schemeSplit l).2).2⟩ := by
  simp only [urlparseCore]
  rw [h]

theorem urlparseCore_path_some (l : List Char) (pq : List Char × List Char)
    (h : splitAtChar '?' (netlocSplit (schemeSplit l).2).2 = some pq) :
    (urlparseCore l).path = ⟨pq.1⟩ := by
  simp only [urlparseCore]
  rw [h]

theorem urlparse_path_head (u : String) (hn : (urlparse u).netloc ≠ "") :
    (urlparse u).path.data = [] ∨
      ∃ t, (urlparse u).path.data = '/' :: t := by
  unfold urlparse at *
  have hhash : ∀ c ∈ u.data.takeWhile (· ≠ '#'), c ≠ '#' := by
    intro c hc
    have := List.mem_takeWhile_imp hc
    simpa using this
  rcases netlocSplit_cases (schemeSplit (u.data.takeWhile (· ≠ '#'))).2 with
    hcase | ⟨rest, hm, hns⟩
  · exfalso
    apply hn
    rw [urlparseCore_netloc, hcase]
  · have hn2 : (netlocSplit (schemeSplit (u.data.takeWhile (· ≠ '#'))).2).2 =
        rest.dropWhile (fun c => !(c = '/' || c = '?' || c = '#')) := by
      rw [hns]
    have hmeml : ∀ c, c ∈ rest.dropWhile
        (fun c => !(c = '/' || c = '?' || c = '#')) →
        c ∈ u.data.takeWhile (· ≠ '#') := by
      intro c hc
      have h1 : c ∈ rest := (List.dropWhile_sublist _).mem hc
      have h2 : c ∈ (schemeSplit (u.data.takeWhile (· ≠ '#'))).2 := by
        rw [hm]
        exact List.mem_cons_of_mem _ (List.mem_cons_of_mem _ h1)
      exact schemeSplit_snd_subset _ c h2
    have hd := dropWhile_head_false
      (fun c => !(c = '/' || c = '?' || c = '#')) rest
    rcases hq : splitAtChar '?'
        (netlocSplit (schemeSplit (u.data.takeWhile (· ≠ '#'))).2).2 with _ | pq
    · rw [urlparseCore_path_none _ hq]
      rw [hn2] at hq ⊢
      rcases hd with hd | ⟨h0, t0, hd, hp0⟩
      · left
        rw [hd]
      · right
        have hne : h0 ≠ '?' := by
          apply splitAtChar_none_eq '?' _ hq
          rw [hd]
          exact List.mem_cons_self _ _
        have hnh : h0 ≠ '#' := by
          apply hhash
          apply hmeml
          rw [hd]
          exact List.mem_cons_self _ _
        have h00 : h0 = '/' := by
          rcases sepPred_false_cases h0 hp0 with h | h | h
          · exact h
          · exact absurd h hne
          · exact absurd h hnh
        exact ⟨t0, by rw [hd, h00]⟩
    · rw [urlparseCore_path_some _ pq hq]
      rw [hn2] at hq
      rcases splitAtChar_some_eq '?' _ _ _ hq with ⟨he, hnoq⟩
      rcases hp1 : pq.1 with _ | ⟨h0, t0⟩
      · left
        rfl
      · right
        rcases hd with hd | ⟨h1, t1, hd, hp0⟩
        · rw [hd] at he
          simp at he
        · rw [hd] at he
          rw [hp1] at he
          have hh : h1 = h0 := by
            simpa using congrArg (fun l => l.headD ' ') he
          have hne : h0 ≠ '?' := by
            apply hnoq
            rw [hp1]
            exact List.mem_cons_self _ _
          have hnh : h0 ≠ '#' := by
            apply hhash
            apply hmeml
            rw [hd, hh]
            exact List.mem_cons_self _ _
          have h00 : h0 = '/' := by
            rw [hh] at hp0
            rcases sepPred_false_cases h0 hp0 with h | h | h
            · exact h
            · exact absurd h hne
            · exact absurd h hnh
          exact ⟨t0, by rw [h00]⟩

theorem urlparse_netloc_no_specials (u : String) :
    ∀ c ∈ (urlparse u).netloc.data, (c = '/' ∨ c = '?' ∨ c = '#') → False := by
  unfold urlparse
  rw [urlparseCore_netloc]
  exact netlocSplit_no_specials _

theorem urlparse_scheme_no_colon (u : String) :
    ∀ c ∈ (urlparse u).scheme.data, c ≠ ':' := by
  unfold urlparse
  rw [urlparseCore_scheme]
  exact scheme_no_colon _

theorem recoverNetloc_build (sch n : String) (T : List Char)
    (hs : ∀ c ∈ sch.data, c ≠ ':')
    (hn : ∀ c ∈ n.data, (c = '/' ∨ c = '?' ∨ c = '#') → False)
    (hT : T = [] ∨ ∃ h t, T = h :: t ∧ (h = '/' ∨ h = '?')) :
    recoverNetloc ⟨sch.data ++ ':' :: '/' :: '/' :: (n.data ++ T)⟩ = n := by
  unfold recoverNetloc
  rw [show (⟨sch.data ++ ':' :: '/' :: '/' :: (n.data ++ T)⟩ : String).data =
    sch.data ++ ':' :: '/' :: '/' :: (n.data ++ T) from rfl]
  rw [dropWhile_append_stop _ sch.data ':' _
    (fun y hy => by simpa using hs y hy) (by decide)]
  rw [show List.drop 3 (':' :: '/' :: '/' :: (n.data ++ T)) = n.data ++ T from rfl]
  rw [takeWhile_append_stop _ n.data T ?_ ?_]
  · intro y hy
    have := hn y hy
    simp only [Bool.not_eq_true', Bool.or_eq_true, decide_eq_true_eq]
    simp only [Bool.or_eq_false_iff, decide_eq_false_iff_not]
    exact ⟨fun e => this (Or.inl e), fun e => this (Or.inr (Or.inl e))⟩
  · rcases hT with rfl | ⟨h, t, rfl, hh⟩
    · exact Or.inl rfl
    · refine Or.inr ⟨h, t, rfl, ?_⟩
      rcases hh with rfl | rfl <;> rfl

theorem string_eq_of_data (s : String) (l : List Char) (h : s.data = l) :
    s = ⟨l⟩ := by
  cases s
  simp at h
  rw [h]

theorem normalize_url_netloc (u : String) (hn : (urlparse u).netloc ≠ "") :
    recoverNetloc (_normalize_url u) = (urlparse u).netloc := by
  have hpath := urlparse_path_head u hn
  have hs := urlparse_scheme_no_colon u
  have hnl := urlparse_netloc_no_specials u
  simp only [_normalize_url]
  split
  · rw [string_eq_of_data ((urlparse u).scheme ++ "://" ++ (urlparse u).netloc ++
        (urlparse u).path ++ "?" ++ joinSep "&"
          ((((qsKeys (parse_qsl false (urlparse u).query)).filter fun k =>
            !(TRACKING_PARAMS.any fun t => strStarts t (strLower k))).foldl
              (fun acc k => insertStrAsc k acc) []).map
            fun k => k ++ "=" ++ firstQ (parse_qsl false (urlparse u).query) k))
      ((urlparse u).scheme.data ++ ':' :: '/' :: '/' ::
        ((urlparse u).netloc.data ++ ((urlparse u).path.data ++ '?' ::
          (joinSep "&"
            ((((qsKeys (parse_qsl false (urlparse u).query)).filter fun k =>
              !(TRACKING_PARAMS.any fun t => strStarts t (strLower k))).foldl
                (fun acc k => insertStrAsc k acc) []).map
              fun k => k ++ "=" ++ firstQ (parse_qsl false (urlparse u).query) k)).data)))
      ?_]
    · rw [recoverNetloc_build _ _ _ hs hnl ?_]
      rcases hpath with hp | ⟨t, hp⟩
      · rw [hp]
        exact Or.inr ⟨'?', _, rfl, Or.inr rfl⟩
      · rw [hp]
        exact Or.inr ⟨'/', _, rfl, Or.inl rfl⟩
    · simp only [String.data_append]
      simp [List.append_assoc]
  · rw [string_eq_of_data ((urlparse u).scheme ++ "://" ++ (urlparse u).netloc ++
        (urlparse u).path)
      ((urlparse u).scheme.data ++ ':' :: '/' :: '/' ::
        ((urlparse u).netloc.data ++ (urlparse u).path.data))
      ?_]
    · rw [recoverNetloc_build _ _ _ hs hnl ?_]
      rcases hpath with hp | ⟨t, hp⟩
      · rw [hp]
        exact Or.inl rfl
      · rw [hp]
        exact Or.inr ⟨'/', _, rfl, Or.inl rfl⟩
    · simp only [String.data_append]
      simp [List.append_assoc]

theorem structureNetloc_build (n X Y : String)
    (hn : ∀ c ∈ n.data, (c = '/' ∨ c = '?' ∨ c = '#') → False) :
    structureNetloc (n ++ "/" ++ X ++ "?" ++ Y) = n := by
  unfold structureNetloc
  have hd : (n ++ "/" ++ X ++ "?" ++ Y).data =
      n.data ++ '/' :: (X.data ++ '?' :: Y.data) := by
    simp only [String.data_append]
    simp [List.append_assoc]
  rw [hd]
  rw [takeWhile_append_stop _ n.data _ ?_ ?_]
  · intro y hy
    simp only [decide_eq_true_eq]
    exact fun e => hn y hy (Or.inl e)
  · exact Or.inr ⟨'/', _, rfl, by decide⟩

theorem get_url_structure_netloc (u : String) :
    structureNetloc (_get_url_structure u) = (urlparse u).netloc := by
  have hnl := urlparse_netloc_no_specials u
  simp only [_get_url_structure]
  exact structureNetloc_build _ _ _ hnl

theorem get_url_structure_netloc_inj (u v : String)
    (h : _get_url_structure u = _get_url_structure v) :
    (urlparse u).netloc = (urlparse v).netloc := by
  rw [← get_url_structure_netloc u, ← get_url_structure_netloc v, h]

theorem normalize_url_netloc_inj (u v : String)
    (hu : (urlparse u).netloc ≠ "") (hv : (urlparse v).netloc ≠ "")
    (h : _normalize_url u = _normalize_url v) :
    (urlparse u).netloc = (urlparse v).netloc := by
  rw [← normalize_url_netloc u hu, ← normalize_url_netloc v hv, h]

theorem contains_cons_eq (x k : String) (l : List String) :
    (x :: l).contains k = ((k == x) || l.contains k) := by
  show List.elem k (x :: l) = _
  rw [List.elem_cons]
  cases hk : k == x
  · simp
  · simp

theorem seen_cons_pres (h : String) (st st' : FState) (x : String)
    (h3 : ∀ v : String, (urlparse v).netloc = h → (urlparse v).netloc ≠ "" →
      st.seen.contains (_normalize_url v) = st'.seen.contains (_normalize_url v)) :
    ∀ v : String, (urlparse v).netloc = h → (urlparse v).netloc ≠ "" →
      (x :: st.seen).contains (_normalize_url v) =
      (x :: st'.seen).contains (_normalize_url v) := by
  intro v hv hv2
  rw [contains_cons_eq, contains_cons_eq, h3 v hv hv2]

theorem seen_cons_other (h : String) (st st' : FState) (x : String)
    (hx : ∀ v : String, (urlparse v).netloc = h → (urlparse v).netloc ≠ "" →
      _normalize_url v ≠ x)
    (h3 : ∀ v : String, (urlparse v).netloc = h → (urlparse v).netloc ≠ "" →
      st.seen.contains (_normalize_url v) = st'.seen.contains (_normalize_url v)) :
    ∀ v : String, (urlparse v).netloc = h → (urlparse v).netloc ≠ "" →
      (x :: st.seen).contains (_normalize_url v) =
      st'.seen.contains (_normalize_url v) := by
  intro v hv hv2
  rw [contains_cons_eq]
  have : (_normalize_url v == x) = false := by
    simp [hx v hv hv2]
  rw [this, Bool.false_or, h3 v hv hv2]

theorem filterStep_host_h (sc sc' : String → Nat) (strict : Bool) (cap : Nat)
    (h : String) (st st' : FState) (item : Item)
    (hhost : hostOfItem item = h)
    (hgood : item.url = "" ∨ (urlparse item.url).netloc ≠ "")
    (hsc : sc (_get_url_structure (splitHash item.url)) =
           sc' (_get_url_structure (splitHash item.url)))
    (hrel : RelHost h st st') :
    RelHost h (filterStep sc strict cap st item)
      (filterStep sc' strict cap st' item) := by
  unfold RelHost at hrel ⊢
  obtain ⟨h1, h2, h3⟩ := hrel
  by_cases hempty : item.url.isEmpty = true
  · unfold filterStep
    rw [if_pos hempty, if_pos hempty]
    exact ⟨h1, h2, h3⟩
  · have hne : (urlparse item.url).netloc ≠ "" := by
      rcases hgood with hg | hg
      · exfalso
        apply hempty
        rw [hg]
        rfl
      · exact hg
    have hnet : (urlparse (splitHash item.url)).netloc = h := by
      rw [urlparse_splitHash]
      exact hhost
    have hnet_ne : (urlparse (splitHash item.url)).netloc ≠ "" := by
      rw [urlparse_splitHash]
      exact hne
    have hseen_eq : st.seen.contains (_normalize_url (splitHash item.url)) =
        st'.seen.contains (_normalize_url (splitHash item.url)) :=
      h3 (splitHash item.url) hnet hnet_ne
    unfold filterStep
    rw [if_neg hempty, if_neg hempty]
    by_cases hs : st.seen.contains (_normalize_url (splitHash item.url)) = true
    · have hs2 : st'.seen.contains (_normalize_url (splitHash item.url)) = true := by
        rw [← hseen_eq]
        exact hs
      rw [if_pos hs, if_pos hs2]
      exact ⟨h1, h2, h3⟩
    · have hs2 : ¬st'.seen.contains (_normalize_url (splitHash item.url)) = true := by
        rw [← hseen_eq]
        exact hs
      rw [if_neg hs, if_neg hs2]
      have hcnt : st.counts ((urlparse (splitHash item.url)).netloc) =
          st'.counts ((urlparse (splitHash item.url)).netloc) := by
        rw [hnet]
        exact h2
      by_cases hcap : cap ≤ st.counts ((urlparse (splitHash item.url)).netloc)
      · have hcap2 : cap ≤ st'.counts ((urlparse (splitHash item.url)).netloc) := by
          rw [← hcnt]
          exact hcap
        rw [if_pos hcap, if_pos hcap2]
        exact ⟨h1, h2, seen_cons_pres h st st' _ h3⟩
      · have hcap2 : ¬cap ≤ st'.counts ((urlparse (splitHash item.url)).netloc) := by
          rw [← hcnt]
          exact hcap
        rw [if_neg hcap, if_neg hcap2]
        by_cases hsys : _is_system_url (splitHash item.url) = true
        · rw [if_pos hsys, if_pos hsys]
          exact ⟨h1, h2, seen_cons_pres h st st' _ h3⟩
        · rw [if_neg hsys, if_neg hsys]
          rw [hsc]
          by_cases hlist : (!(hasQ (parse_qsl false
                (urlparse (splitHash item.url)).query) "wr_id" ||
              decide (3 ≤ sc' (_get_url_structure (splitHash item.url))) ||
              _has_content_identifier (splitHash item.url)) &&
              _is_list_page (splitHash item.url)) = true
          · rw [if_pos hlist, if_pos hlist]
            exact ⟨h1, h2, seen_cons_pres h st st' _ h3⟩
          · rw [if_neg hlist, if_neg hlist]
            by_cases hstrict : (strict &&
                !(hasQ (parse_qsl false
                    (urlparse (splitHash item.url)).query) "wr_id" ||
                  decide (3 ≤ sc' (_get_url_structure (splitHash item.url))) ||
                  _has_content_identifier (splitHash item.url))) = true
            · rw [if_pos hstrict, if_pos hstrict]
              exact ⟨h1, h2, seen_cons_pres h st st' _ h3⟩
            · rw [if_neg hstrict, if_neg hstrict]
              refine ⟨?_, ?_, seen_cons_pres h st st' _ h3⟩
              · show countHost h (st.filtered ++ [_]) =
                  countHost h (st'.filtered ++ [_])
                rw [countHost_append_single, countHost_append_single]
                rw [show (⟨splitHash item.url, item.title, item.snippet⟩ : Item).url
                  = splitHash item.url from rfl]
                rw [hnet, if_pos rfl, h1]
              · show (if h = (urlparse (splitHash item.url)).netloc
                    then st.counts h + 1 else st.counts h) =
                  (if h = (urlparse (splitHash item.url)).netloc
                    then st'.counts h + 1 else st'.counts h)
                rw [if_pos hnet.symm, if_pos hnet.symm, h2]

theorem filterStep_host_other (sc : String → Nat) (strict : Bool) (cap : Nat)
    (h : String) (st st' : FState) (item : Item)
    (hhost : hostOfItem item ≠ h)
    (hgood : item.url = "" ∨ (urlparse item.url).netloc ≠ "")
    (hrel : RelHost h st st') :
    RelHost h (filterStep sc strict cap st item) st' := by
  unfold RelHost at hrel ⊢
  obtain ⟨h1, h2, h3⟩ := hrel
  by_cases hempty : item.url.isEmpty = true
  · unfold filterStep
    rw [if_pos hempty]
    exact ⟨h1, h2, h3⟩
  · have hne : (urlparse item.url).netloc ≠ "" := by
      rcases hgood with hg | hg
      · exfalso
        apply hempty
        rw [hg]
        rfl
      · exact hg
    have hnet_ne : (urlparse (splitHash item.url)).netloc ≠ "" := by
      rw [urlparse_splitHash]
      exact hne
    have hdom : (urlparse (splitHash item.url)).netloc ≠ h := by
      rw [urlparse_splitHash]
      exact hhost
    have hkey : ∀ v : String, (urlparse v).netloc = h →
        (urlparse v).netloc ≠ "" →
        _normalize_url v ≠ _normalize_url (splitHash item.url) := by
      intro v hv hv2 he
      have hvn := normalize_url_netloc_inj v (splitHash item.url) hv2 hnet_ne he
      apply hdom
      rw [← hvn, hv]
    simp only [filterStep]
    rw [if_neg hempty]
    split_ifs with hs hcap hsys hlist hstrict
    · exact ⟨h1, h2, h3⟩
    · exact ⟨h1, h2, seen_cons_other h st st' _ hkey h3⟩
    · exact ⟨h1, h2, seen_cons_other h st st' _ hkey h3⟩
    · exact ⟨h1, h2, seen_cons_other h st st' _ hkey h3⟩
    · exact ⟨h1, h2, seen_cons_other h st st' _ hkey h3⟩
    · refine ⟨?_, ?_, seen_cons_other h st st' _ hkey h3⟩
      · show countHost h (st.filtered ++ [_]) = countHost h st'.filtered
        rw [countHost_append_single]
        rw [show (⟨splitHash item.url, item.title, item.snippet⟩ : Item).url
          = splitHash item.url from rfl]
        rw [if_neg hdom, Nat.add_zero, h1]
      · show (if h = (urlparse (splitHash item.url)).netloc
            then st.counts h + 1 else st.counts h) = st'.counts h
        rw [if_neg (fun e => hdom e.symm), h2]

theorem filter_eq_filter_filter {α : Type} (p q : α → Bool) :
    ∀ l : List α, (∀ a ∈ l, p a = true → q a = true) →
      l.filter p = (l.filter q).filter p := by
  intro l
  induction l with
  | nil => intro _; rfl
  | cons a t ih =>
    intro himp
    rw [List.filter_cons, List.filter_cons]
    by_cases hpa : p a = true
    · rw [if_pos hpa, if_pos (himp a (List.mem_cons_self _ _) hpa),
        List.filter_cons, if_pos hpa,
        ih (fun b hb => himp b (List.mem_cons_of_mem _ hb))]
    · rw [if_neg hpa]
      by_cases hqa : q a = true
      · rw [if_pos hqa, List.filter_cons, if_neg hpa,
          ih (fun b hb => himp b (List.mem_cons_of_mem _ hb))]
      · rw [if_neg hqa, ih (fun b hb => himp b (List.mem_cons_of_mem _ hb))]

theorem structCounts_restrict (urls : List Item) (h : String) (i : Item)
    (hi : hostOfItem i = h) :
    structCounts urls (_get_url_structure (splitHash i.url)) =
    structCounts (urls.filter fun j => hostOfItem j = h)
      (_get_url_structure (splitHash i.url)) := by
  unfold structCounts
  rw [← filter_eq_filter_filter _ _ urls ?_]
  intro j hj hP
  simp only [Bool.and_eq_true, decide_eq_true_eq] at hP
  have hnj : (urlparse j.url).netloc =
      (urlparse (splitHash i.url)).netloc :=
    get_url_structure_netloc_inj j.url (splitHash i.url) hP.2
  rw [urlparse_splitHash] at hnj
  simp only [decide_eq_true_eq]
  show hostOfItem j = h
  unfold hostOfItem
  rw [hnj]
  exact hi

theorem foldl_filterStep_host (sc sc' : String → Nat) (strict : Bool)
    (cap : Nat) (h : String) :
    ∀ l : List Item,
      (∀ i ∈ l, i.url = "" ∨ (urlparse i.url).netloc ≠ "") →
      (∀ i ∈ l, hostOfItem i = h →
        sc (_get_url_structure (splitHash i.url)) =
        sc' (_get_url_structure (splitHash i.url))) →
      ∀ st st', RelHost h st st' →
      RelHost h (l.foldl (filterStep sc strict cap) st)
        ((l.filter fun i => hostOfItem i = h).foldl
          (filterStep sc' strict cap) st') := by
  intro l
  induction l with
  | nil =>
    intro _ _ st st' hrel
    exact hrel
  | cons item t ih =>
    intro hgood hsc st st' hrel
    rw [List.foldl_cons, List.filter_cons]
    by_cases hh : hostOfItem item = h
    · rw [if_pos (by simp [hh]), List.foldl_cons]
      exact ih (fun i hi => hgood i (List.mem_cons_of_mem _ hi))
        (fun i hi => hsc i (List.mem_cons_of_mem _ hi)) _ _
        (filterStep_host_h sc sc' strict cap h st st' item hh
          (hgood item (List.mem_cons_self _ _))
          (hsc item (List.mem_cons_self _ _) hh) hrel)
    · rw [if_neg (by simp [hh])]
      exact ih (fun i hi => hgood i (List.mem_cons_of_mem _ hi))
        (fun i hi => hsc i (List.mem_cons_of_mem _ hi)) _ _
        (filterStep_host_other sc strict cap h st st' item hh
          (hgood item (List.mem_cons_self _ _)) hrel)

/-- C6 (amended): a `filter_urls` output never contains more than
`max_per_domain` entries of any given host, and — provided every
nonempty input URL parses with a nonempty netloc — the count for a
host equals the count obtained from the input restricted to that host.
The netloc proviso is forced by the counterexample: scheme-less URLs
can collide on the duplicate-suppression key across hosts. -/
theorem filter_urls_per_host (urls : List Item) (strict : Bool) (cap : Nat)
    (h : String) :
    countHost h (filter_urls urls strict cap) ≤ cap ∧
    ((∀ i ∈ urls, i.url = "" ∨ (urlparse i.url).netloc ≠ "") →
      countHost h (filter_urls urls strict cap) =
      countHost h (filter_urls
        (urls.filter fun i => hostOfItem i = h) strict cap)) := by
  refine ⟨filter_urls_cap urls strict cap h, ?_⟩
  intro hgood
  unfold filter_urls
  have hrel := foldl_filterStep_host (structCounts urls)
    (structCounts (urls.filter fun i => hostOfItem i = h)) strict cap h urls
    hgood
    (fun i hi hh => structCounts_restrict urls h i hh)
    ⟨[], [], fun _ => 0⟩ ⟨[], [], fun _ => 0⟩ ⟨rfl, rfl, fun _ _ _ => rfl⟩
  exact hrel.1

/-- C1: on the four-URL scenario list, the deterministic Stage 1/2
rules of the hybrid classifier alone assign the labels SEO, POST, SEO,
POST in order (the code's `"SEO"` is the spec's LISTING); the Stage 3
oracle is universally quantified and never consulted. -/
theorem classifier_end_to_end (oracle : List String → BatchOutcome) :
    classify_urls oracle
      ["https://d.example/", "https://d.example/mt/5733",
       "https://d.example/bbs/board.php?bo_table=notice",
       "https://d.example/bbs/board.php?bo_table=notice&wr_id=5"] 20 =
    [("https://d.example/", "SEO"), ("https://d.example/mt/5733", "POST"),
     ("https://d.example/bbs/board.php?bo_table=notice", "SEO"),
     ("https://d.example/bbs/board.php?bo_table=notice&wr_id=5", "POST")] := rfl

/-- C8: `_get_url_structure` maps `/post/123` and `/post/456` to the
same signature (numeric segments collapse to the id placeholder), and
`/post/abc-def` to a different one. -/
theorem structural_signature_collapse :
    _get_url_structure "https://d.example/post/123" =
      _get_url_structure "https://d.example/post/456" ∧
    _get_url_structure "https://d.example/post/abc-def" ≠
      _get_url_structure "https://d.example/post/123" ∧
    _get_url_structure "https://d.example/post/abc-def" ≠
      _get_url_structure "https://d.example/post/456" := by
  refine ⟨by decide, by decide, by decide⟩

/-- C10: Stage 1 matches query keys by raw substring, not by parsed
key — `https://d.example/?mypage=1` carries none of the recognized
pagination or item-id keys as a parsed parameter (its only key is
`mypage`), yet `is_obvious_post` returns `true`, because `"page="`
occurs as a substring of `"mypage=1"`. -/
theorem stage1_substring_matching :
    is_obvious_post "https://d.example/?mypage=1" = true ∧
    qsKeys (parse_qsl false (urlparse "https://d.example/?mypage=1").query) =
      ["mypage"] ∧
    (["wr_id", "id", "no", "idx", "seq", "document_srl",
      "page", "sca", "sfl", "stx", "sop", "sst", "sod"].all fun k =>
      !hasQ (parse_qsl false
        (urlparse "https://d.example/?mypage=1").query) k) = true := by
  refine ⟨by decide, by decide, by decide⟩

/-- C5 (counterexample): `https://d.example/?id=5` carries the
recognized item-id query key `id` as a parsed query parameter, yet
`is_obvious_post` returns `false` — `post_params` has no entry for
`id`, `no`, `idx`, `seq` or `document_srl`. -/
theorem item_id_keys_not_detected_cex :
    hasQ (parse_qsl false (urlparse "https://d.example/?id=5").query) "id" = true ∧
    is_obvious_post "https://d.example/?id=5" = false := by
  refine ⟨by decide, by decide⟩

/-- C5 (amended): `wr_id` is the only item-id query key Stage 1
checks: every URL whose raw query contains the substring `"wr_id="` is
labeled POST by `is_obvious_post` without reaching Stage 2 or 3. -/
theorem is_obvious_post_of_wr_id (url : String)
    (h : strHasSub "wr_id=" (urlparse url).query = true) :
    is_obvious_post url = true := by
  have h1 : (post_params.any fun p =>
      strHasSub (p ++ "=") (urlparse url).query) = true := by
    refine List.any_eq_true.mpr ⟨"wr_id", by decide, ?_⟩
    have e : ("wr_id" ++ "=" : String) = "wr_id=" := rfl
    rw [e]
    exact h
  simp only [is_obvious_post]
  rw [h1]
  rfl

/-- Witness for the amended C5 theorem at a concrete URL. -/
theorem is_obvious_post_of_wr_id_witness :
    strHasSub "wr_id="
      (urlparse "https://d.example/bbs/board.php?bo_table=x&wr_id=9").query
      = true ∧
    is_obvious_post "https://d.example/bbs/board.php?bo_table=x&wr_id=9" = true :=
  ⟨by decide, is_obvious_post_of_wr_id
    "https://d.example/bbs/board.php?bo_table=x&wr_id=9" (by decide)⟩

/-- C4 (counterexample): attaching `page=2` to
`https://d.example/?sca=1`, a base URL that already carries the
pagination key `sca`, leaves `calculate_score` unchanged instead of
strictly decreasing it. -/
theorem pagination_penalty_not_strict_cex :
    (urlparse "https://d.example/?sca=1&page=2").path =
      (urlparse "https://d.example/?sca=1").path ∧
    (urlparse "https://d.example/?sca=1&page=2").query =
      joinAmp (urlparse "https://d.example/?sca=1").query "page=2" ∧
    calculate_score "https://d.example/?sca=1&page=2" "" "" =
      calculate_score "https://d.example/?sca=1" "" "" ∧
    ¬(calculate_score "https://d.example/?sca=1&page=2" "" "" <
      calculate_score "https://d.example/?sca=1" "" "") := by
  refine ⟨by decide, by decide, by decide, by decide⟩

/-- Witness for the amended C4 theorem: attaching `page` to
`https://d.example/board` strictly lowers the score. -/
theorem calculate_score_pagination_penalty_witness :
    "page" ∈ filter_params ∧
    (urlparse "https://d.example/board?page=1").path =
      (urlparse "https://d.example/board").path ∧
    (urlparse "https://d.example/board?page=1").query =
      joinAmp (urlparse "https://d.example/board").query ("page" ++ "=1") ∧
    calculate_score "https://d.example/board?page=1" "" "" <
      calculate_score "https://d.example/board" "" "" :=
  ⟨by decide, by decide, by decide,
    (calculate_score_pagination_penalty "https://d.example/board"
      "https://d.example/board?page=1" "" "" "page" (by decide) (by decide)
      (by decide) (by decide)).2⟩

/-- Witness for C2: seven unresolved URLs, one failing batch call,
each receives `"POST"`. -/
theorem classify_urls_fail_post_witness :
    is_obvious_post "https://d.example/u/a" = false ∧
    is_obvious_seo "https://d.example/u/a" = false ∧
    dictGet? (classify_urls (fun _ => BatchOutcome.failure)
      ["https://d.example/u/a", "https://d.example/u/b", "https://d.example/u/c",
       "https://d.example/u/d", "https://d.example/u/e", "https://d.example/u/f",
       "https://d.example/u/g"] 20) "https://d.example/u/a" = some "POST" :=
  ⟨by decide, by decide,
    classify_urls_fail_post (fun _ => BatchOutcome.failure)
      ["https://d.example/u/a", "https://d.example/u/b", "https://d.example/u/c",
       "https://d.example/u/d", "https://d.example/u/e", "https://d.example/u/f",
       "https://d.example/u/g"] 20 (by decide) "https://d.example/u/a"
      (by decide) (by decide) (by decide) (fun b _ _ => Or.inl rfl)⟩

/-- Witness for C3 with a non-200 response oracle. -/
theorem classify_urls_total_witness :
    ∃ v, dictGet? (classify_urls (fun _ => BatchOutcome.success 500 "")
      ["https://d.example/u/x"] 20) "https://d.example/u/x" = some v ∧
      (v = "SEO" ∨ v = "POST") :=
  classify_urls_total (fun _ => BatchOutcome.success 500 "")
    ["https://d.example/u/x"] 20 (by decide) "https://d.example/u/x" (by decide)

/-- C6 (counterexample): per-host counts are not independent of other
hosts' entries as claimed.  The scheme-less URL `d.example/b?wr_id=1`
parses with host `""` but produces the same `_normalize_url` key as
`//d.example/b?wr_id=1` (host `d.example`), so its presence drops host
`d.example`'s output count from 1 to 0. -/
theorem filter_urls_host_not_independent_cex :
    ([⟨"d.example/b?wr_id=1", "", ""⟩,
      ⟨"//d.example/b?wr_id=1", "", ""⟩] : List Item).filter
        (fun i => hostOfItem i = "d.example") =
      [⟨"//d.example/b?wr_id=1", "", ""⟩] ∧
    countHost "d.example" (filter_urls
      [⟨"d.example/b?wr_id=1", "", ""⟩, ⟨"//d.example/b?wr_id=1", "", ""⟩]
      false 50) = 0 ∧
    countHost "d.example" (filter_urls
      [⟨"//d.example/b?wr_id=1", "", ""⟩] false 50) = 1 := by
  refine ⟨by decide, by decide, by decide⟩

/-- Witness for the amended C6 theorem on a two-host input. -/
theorem filter_urls_per_host_witness :
    countHost "a.example" (filter_urls
      [⟨"https://a.example/x?wr_id=1", "", ""⟩,
       ⟨"https://b.example/y?wr_id=2", "", ""⟩] false 50) ≤ 50 ∧
    countHost "a.example" (filter_urls
      [⟨"https://a.example/x?wr_id=1", "", ""⟩,
       ⟨"https://b.example/y?wr_id=2", "", ""⟩] false 50) =
    countHost "a.example" (filter_urls
      (([⟨"https://a.example/x?wr_id=1", "", ""⟩,
         ⟨"https://b.example/y?wr_id=2", "", ""⟩] : List Item).filter
        fun i => hostOfItem i = "a.example") false 50) :=
  ⟨(filter_urls_per_host
      [⟨"https://a.example/x?wr_id=1", "", ""⟩,
       ⟨"https://b.example/y?wr_id=2", "", ""⟩] false 50 "a.example").1,
   (filter_urls_per_host
      [⟨"https://a.example/x?wr_id=1", "", ""⟩,
       ⟨"https://b.example/y?wr_id=2", "", ""⟩] false 50 "a.example").2
     (by decide)⟩
